import Mathlib

/-!
# route53-update: a verification development

A shallow embedding of `main.go` (the whole program: `findTargetByFile`,
`findTargetByMetadata` and `main`) together with the parts of the Go standard
library that `findTargetByFile` runs through (`bufio.Scanner` with its default
`ScanLines` split function, `strings.TrimSpace`, `unicode.IsSpace`, the UTF-8
decoder).  The operating system, the EC2 metadata service and Route 53 are an
explicit `World` of answers; a run of `main` is the list of the calls it makes
and the lines it prints, in order.
-/

namespace Route53Update

/-! ## Go strings -/

/-- A Go string: an immutable sequence of bytes.  A byte is a natural number
(below 256 in real data; larger values are treated as invalid UTF-8). -/
abbrev GoString := List Nat

/-- The bytes of an ASCII string literal of the source. -/
def str (s : String) : GoString := s.toList.map Char.toNat

/-! ## unicode/utf8 -/

/-- Constant `utf8.RuneError`, the replacement rune U+FFFD. -/
def RuneError : Nat := 0xFFFD

/-- Constant `utf8.RuneSelf`: bytes below it are single-byte runes. -/
def RuneSelf : Nat := 0x80

/-- Constant `utf8.UTFMax`: the longest encoding of a rune, in bytes. -/
def UTFMax : Nat := 4

/-- A continuation byte of a multi-byte sequence (`locb ≤ b ≤ hicb`). -/
def isCont (b : Nat) : Bool := decide (0x80 ≤ b) && decide (b ≤ 0xBF)

/-- Function `utf8.RuneStart`: the byte is not a continuation byte
(`b & 0xC0 != 0x80`). -/
def RuneStart (b : Nat) : Bool := !isCont b

/-- Function `utf8.DecodeRuneInString`: the first rune of `s` and its width in
bytes; `(RuneError, 0)` for the empty string and `(RuneError, 1)` for an
invalid or truncated encoding.  The lead byte selects the width and the range
accepted for the second byte (the `first` and `acceptRanges` tables); masks and
shifts are written with `%` and `*`. -/
def DecodeRuneInString (s : GoString) : Nat × Nat :=
  match s with
  | [] => (RuneError, 0)
  | s0 :: rest =>
    if s0 < 0x80 then (s0, 1)
    else if s0 < 0xC2 then (RuneError, 1)
    else if s0 < 0xE0 then
      match rest with
      | s1 :: _ =>
        if isCont s1 then ((s0 % 32) * 64 + s1 % 64, 2) else (RuneError, 1)
      | _ => (RuneError, 1)
    else if s0 < 0xF0 then
      let lo := if s0 = 0xE0 then 0xA0 else 0x80
      let hi := if s0 = 0xED then 0x9F else 0xBF
      match rest with
      | s1 :: s2 :: _ =>
        if s1 < lo ∨ hi < s1 then (RuneError, 1)
        else if !isCont s2 then (RuneError, 1)
        else ((s0 % 16) * 4096 + (s1 % 64) * 64 + s2 % 64, 3)
      | _ => (RuneError, 1)
    else if s0 < 0xF5 then
      let lo := if s0 = 0xF0 then 0x90 else 0x80
      let hi := if s0 = 0xF4 then 0x8F else 0xBF
      match rest with
      | s1 :: s2 :: s3 :: _ =>
        if s1 < lo ∨ hi < s1 then (RuneError, 1)
        else if !isCont s2 then (RuneError, 1)
        else if !isCont s3 then (RuneError, 1)
        else ((s0 % 8) * 262144 + (s1 % 64) * 4096 + (s2 % 64) * 64 + s3 % 64, 4)
      | _ => (RuneError, 1)
    else (RuneError, 1)

/-- The backward search of `utf8.DecodeLastRuneInString`:
`for start--; start >= lim; start-- { if RuneStart(s[start]) { break } }`,
entered after the decrement; the result is the final value of `start`. -/
def backScan (s : GoString) (lim : Int) : Nat → Int → Int
  | 0, start => start
  | fuel + 1, start =>
    if lim ≤ start then
      if RuneStart (s.getD start.toNat 0) then start
      else backScan s lim fuel (start - 1)
    else start

/-- Function `utf8.DecodeLastRuneInString`: the last rune of `s` and its width.
The backward search inspects at most `UTFMax - 1` bytes, so `UTFMax` steps
always reach its exit. -/
def DecodeLastRuneInString (s : GoString) : Nat × Nat :=
  let e : Int := s.length
  if s.length = 0 then (RuneError, 0)
  else
    let r := s.getD (s.length - 1) 0
    if r < RuneSelf then (r, 1)
    else
      let lim : Int := if e - UTFMax < 0 then 0 else e - UTFMax
      let start := backScan s lim UTFMax (e - 1 - 1)
      let start := if start < 0 then 0 else start
      let (r, size) := DecodeRuneInString (s.drop start.toNat)
      if start + size ≠ e then (RuneError, 1) else (r, size)

/-! ## unicode -/

/-- Function `unicode.IsSpace`: the Latin-1 white space
`'\t' '\n' '\v' '\f' '\r' ' ' U+0085 U+00A0`, and beyond Latin-1 the
`White_Space` table. -/
def IsSpace (r : Nat) : Bool :=
  if r ≤ 0xFF then
    r = 9 || r = 10 || r = 11 || r = 12 || r = 13 || r = 32 || r = 0x85 || r = 0xA0
  else
    r = 0x1680 || (decide (0x2000 ≤ r) && decide (r ≤ 0x200a)) || r = 0x2028 || r = 0x2029
      || r = 0x202f || r = 0x205f || r = 0x3000

/-! ## strings -/

/-- The loop of `strings.indexFunc`, from byte offset `start`: the offset of
the first rune `r` with `f r == truth`, or `-1`.  Every step advances by at
least one byte, so `len(s)` steps from offset 0 reach the end of `s`. -/
def indexFuncLoop (s : GoString) (f : Nat → Bool) (truth : Bool) : Nat → Nat → Int
  | 0, _ => -1
  | fuel + 1, start =>
    if start < s.length then
      let b := s.getD start 0
      let (r, wid) := if RuneSelf ≤ b then DecodeRuneInString (s.drop start) else (b, 1)
      if f r == truth then (start : Int)
      else indexFuncLoop s f truth fuel (start + wid)
    else -1

/-- Function `strings.indexFunc`. -/
def indexFunc (s : GoString) (f : Nat → Bool) (truth : Bool) : Int :=
  indexFuncLoop s f truth s.length 0

/-- The loop of `strings.lastIndexFunc`, from byte offset `i` downwards:
`for i := len(s); i > 0; { r, size := DecodeLastRuneInString(s[0:i]); i -= size; ... }`. -/
def lastIndexFuncLoop (s : GoString) (f : Nat → Bool) (truth : Bool) : Nat → Nat → Int
  | 0, _ => -1
  | fuel + 1, i =>
    if 0 < i then
      let (r, size) := DecodeLastRuneInString (s.take i)
      if f r == truth then ((i - size : Nat) : Int)
      else lastIndexFuncLoop s f truth fuel (i - size)
    else -1

/-- Function `strings.lastIndexFunc`. -/
def lastIndexFunc (s : GoString) (f : Nat → Bool) (truth : Bool) : Int :=
  lastIndexFuncLoop s f truth s.length s.length

/-- Function `strings.TrimLeftFunc`: `s[i:]` for the first rune not satisfying
`f`, or the empty string. -/
def TrimLeftFunc (s : GoString) (f : Nat → Bool) : GoString :=
  let i := indexFunc s f false
  if i = -1 then [] else s.drop i.toNat

/-- Function `strings.TrimRightFunc`: `s[0:i]` where `i` is the end of the last
rune not satisfying `f`. -/
def TrimRightFunc (s : GoString) (f : Nat → Bool) : GoString :=
  let i := lastIndexFunc s f false
  let i : Int :=
    if 0 ≤ i ∧ RuneSelf ≤ s.getD i.toNat 0 then
      i + (DecodeRuneInString (s.drop i.toNat)).2
    else i + 1
  s.take i.toNat

/-- Function `strings.TrimFunc`. -/
def TrimFunc (s : GoString) (f : Nat → Bool) : GoString :=
  TrimRightFunc (TrimLeftFunc s f) f

/-- Function `strings.TrimSpace`: `s` without its leading and trailing white
space, as defined by Unicode (`TrimFunc(s, unicode.IsSpace)`). -/
def TrimSpace (s : GoString) : GoString := TrimFunc s IsSpace


/-! ## Errors -/

/-- A Go `error` value, as far as this program can tell errors apart: the two
sentinels the scanner compares or sets, an `awserr.Error` (with what its
`Code()`, `Message()`, `Error()` return and the `Error()` text of its
`OrigErr()`, if any), and any other error, known by its `Error()` text. -/
inductive GoError where
  | EOF
  | ErrTooLong
  | awsError (code message text : GoString) (orig : Option GoString)
  | errorString (text : GoString)
  deriving DecidableEq, Repr

/-- Method `Error()` of an error value. -/
def GoError.Error : GoError → GoString
  | .EOF => str "EOF"
  | .ErrTooLong => str "bufio.Scanner: token too long"
  | .awsError _ _ text _ => text
  | .errorString text => text

/-! ## os.File as an `io.Reader` -/

/-- An open file, as a reader: the bytes `data` still to be delivered, the
error `fail` the read after the last byte returns (`none` for a clean end of
file, reported as `io.EOF`), and `short`, the sizes of the coming reads that
return fewer bytes than asked for (a pipe or terminal; empty for a regular
file, whose reads fill the buffer). -/
structure File where
  data : GoString
  fail : Option GoError
  short : List Nat
  deriving DecidableEq, Repr

/-- Method `(*os.File).Read` on a buffer of `n > 0` bytes: the bytes read, the
error, and the file afterwards.  While data remains a read returns at least
one byte and no error; afterwards it returns no byte and the terminal error. -/
def File.Read (f : File) (n : Nat) : GoString × Option GoError × File :=
  match f.data with
  | [] => ([], some (f.fail.getD GoError.EOF), f)
  | _ :: _ =>
    let k := min n (max 1 (f.short.headD n))
    (f.data.take k, none, ⟨f.data.drop k, f.fail, f.short.tail⟩)

/-! ## bufio.Scanner -/

/-- Constant `bufio.MaxScanTokenSize`. -/
def MaxScanTokenSize : Nat := 64 * 1024

/-- Constant `bufio.startBufSize`. -/
def startBufSize : Nat := 4096

/-- Function `bufio.dropCR`: drop a terminal `'\r'`. -/
def dropCR (data : GoString) : GoString :=
  if 0 < data.length ∧ data.getD (data.length - 1) 0 = 13 then data.take (data.length - 1)
  else data

/-- Function `bufio.ScanLines`, the default split function: `(advance, token)`,
with `none` for a nil token (the function never returns an error). -/
def ScanLines (data : GoString) (atEOF : Bool) : Nat × Option GoString :=
  if atEOF ∧ data.length = 0 then (0, none)
  else
    let i := data.indexOf 10
    if i < data.length then (i + 1, some (dropCR (data.take i)))
    else if atEOF then (data.length, some (dropCR data))
    else (0, none)

/-- The state of a `bufio.Scanner`: its reader, the length of its buffer, the
unprocessed bytes `buf[start:end]`, the last token (`none` for nil), the sticky
error, and the split limit. -/
structure Scanner where
  r : File
  buf : Nat
  held : GoString
  tok : Option GoString
  err : Option GoError
  maxTokenSize : Nat
  deriving DecidableEq, Repr

/-- Function `bufio.NewScanner`. -/
def NewScanner (r : File) : Scanner :=
  ⟨r, 0, [], none, none, MaxScanTokenSize⟩

/-- The `for` loop of `(*Scanner).Scan`, for at most `fuel` iterations; the
result is the scanner when `Scan` returns (`none`: more iterations needed).
Per iteration, as in the source: try the split function on the held bytes (at
end of input also on no bytes); return on a token; return if the input has
ended; fail with `ErrTooLong` on a full buffer of the maximal size, else double
it (from `startBufSize`); read once.  A nil token comes with advance 0, so
the held bytes stay.  With the reader above one `Read` always
makes progress, so the inner loop that guards against empty reads runs once;
before the first token `start` is 0, so no data is shifted. -/
def scanLoop : Nat → Scanner → Option Scanner
  | 0, _ => none
  | fuel + 1, s =>
    let called : Bool := decide (0 < s.held.length ∨ s.err ≠ none)
    let split : Nat × Option GoString :=
      if called then ScanLines s.held (decide (s.err ≠ none)) else (0, none)
    match split.2 with
    | some token => some { s with held := s.held.drop split.1, tok := some token }
    | none =>
      let s : Scanner := if called then { s with tok := none } else s
      if s.err ≠ none then some { s with held := [] }
      else if s.held.length = s.buf ∧ s.maxTokenSize ≤ s.buf then
        some { s with err := some GoError.ErrTooLong }
      else
        let newSize :=
          if s.held.length = s.buf then
            min (if s.buf * 2 = 0 then startBufSize else s.buf * 2) s.maxTokenSize
          else s.buf
        let (bytes, e, r) := s.r.Read (newSize - s.held.length)
        scanLoop fuel { s with r := r, buf := newSize, held := s.held ++ bytes, err := e }

/-- Method `(*Scanner).Scan`, first call.  Every iteration that does not return
consumes input or meets its end, so `len(data) + 2` iterations suffice
(`scanLoop_terminates` below); the fallback is never taken. -/
def Scanner.Scan (s : Scanner) : Scanner :=
  (scanLoop (s.r.data.length + 2) s).getD s

/-- Method `(*Scanner).Text`: the last token as a string (empty for nil). -/
def Scanner.Text (s : Scanner) : GoString := s.tok.getD []

/-- Method `(*Scanner).Err`: the first error met, `io.EOF` excepted. -/
def Scanner.Err (s : Scanner) : Option GoError :=
  if s.err = some GoError.EOF then none else s.err


/-! ## The program's data -/

/-- The package-level variables bound to the command-line flags. -/
structure Flags where
  domain : GoString
  zoneID : GoString
  ttl : Int
  ip : GoString
  ipMetadata : Bool
  ipFile : GoString
  waitForIt : Bool
  deriving DecidableEq, Repr

/-- The flag defaults of `main`: all strings empty, both booleans false, a TTL of 60. -/
def defaultFlags : Flags := ⟨[], [], 60, [], false, [], false⟩

/-- Type `route53.ResourceRecord`. -/
structure ResourceRecord where
  Value : GoString
  deriving DecidableEq, Repr

/-- Type `route53.ResourceRecordSet`, the fields the program sets (`Type_` is
the field `Type`). -/
structure ResourceRecordSet where
  Name : GoString
  Type_ : GoString
  ResourceRecords : List ResourceRecord
  TTL : Int
  Weight : Int
  SetIdentifier : GoString
  deriving DecidableEq, Repr

/-- Type `route53.Change`. -/
structure Change where
  Action : GoString
  ResourceRecordSet : ResourceRecordSet
  deriving DecidableEq, Repr

/-- Type `route53.ChangeBatch`. -/
structure ChangeBatch where
  Changes : List Change
  Comment : GoString
  deriving DecidableEq, Repr

/-- Type `route53.ChangeResourceRecordSetsInput`. -/
structure ChangeResourceRecordSetsInput where
  ChangeBatch : ChangeBatch
  HostedZoneId : GoString
  deriving DecidableEq, Repr

/-- Type `route53.ChangeInfo`, the fields the program reads.  Both are
`*string` in the SDK: `none` is the nil pointer of a response that lacks the
element. -/
structure ChangeInfo where
  Id : Option GoString
  Comment : Option GoString
  deriving DecidableEq, Repr

/-- Type `route53.ChangeResourceRecordSetsOutput`; `ChangeInfo` is a pointer,
`none` when nil. -/
structure ChangeResourceRecordSetsOutput where
  ChangeInfo : Option ChangeInfo
  deriving DecidableEq, Repr

/-- Type `route53.GetChangeInput`; `Id` is the pointer handed on from the
response. -/
structure GetChangeInput where
  Id : Option GoString
  deriving DecidableEq, Repr

/-- Type `session.Session`, opaque to the program. -/
structure Session where
  handle : Nat
  deriving DecidableEq, Repr

/-- What lies outside the program, as the answers it gives: session creation,
`os.Open`, the metadata client's `Available` and `GetMetadata`, and the Route 53
client's `ChangeResourceRecordSets` and `WaitUntilResourceRecordSetsChanged`
(`none` for a nil error). -/
structure World where
  NewSession : Except GoError Session
  Open : GoString → Except GoError File
  Available : Session → Bool
  GetMetadata : Session → GoString → Except GoError GoString
  ChangeResourceRecordSets :
    Session → ChangeResourceRecordSetsInput → Except GoError ChangeResourceRecordSetsOutput
  WaitUntilResourceRecordSetsChanged : Session → GetChangeInput → Option GoError

/-- What a run does that can be seen from outside, in order: the calls it makes
and the lines it writes with `fmt.Println` (standard output) and with the `log`
package (standard error; the text after the time stamp), without the final
newline; `Panic` is the end of the run in a run-time panic (a nil pointer
dereferenced). -/
inductive Event where
  | NewSession
  | Open (name : GoString)
  | Available
  | GetMetadata (p : GoString)
  | ChangeResourceRecordSets (params : ChangeResourceRecordSetsInput)
  | WaitUntilResourceRecordSetsChanged (input : GetChangeInput)
  | Println (line : GoString)
  | Log (line : GoString)
  | Panic
  deriving DecidableEq, Repr

/-! ## main.go -/

/-- Function `findTargetByFile` (lines 28-45): the returned pair and the calls made. -/
def findTargetByFile (w : World) (ipFile : GoString) :
    (GoString × Option GoError) × List Event :=
  match w.Open ipFile with
  | .error err =>
    (([], some (.errorString (str "can't open ip file: " ++ err.Error))), [.Open ipFile])
  | .ok file =>
    let scanner := (NewScanner file).Scan
    let ip := scanner.Text
    match scanner.Err with
    | some err => (([], some err), [.Open ipFile])
    | none => ((TrimSpace ip, none), [.Open ipFile])

/-- Function `findTargetByMetadata` (lines 47-60). -/
def findTargetByMetadata (w : World) (sess : Session) :
    (GoString × Option GoError) × List Event :=
  if !w.Available sess then
    (([], some (.errorString (str "Metadata service unavailable"))), [.Available])
  else
    match w.GetMetadata sess (str "public-ipv4") with
    | .error err => (([], some err), [.Available, .GetMetadata (str "public-ipv4")])
    | .ok ip => ((ip, none), [.Available, .GetMetadata (str "public-ipv4")])

/-- Lines 80-88 of `main`: the values of `target` and `err` after the
`if ... else if ...` chain, and the calls made. -/
def resolveTarget (fl : Flags) (w : World) (sess : Session) :
    (GoString × Option GoError) × List Event :=
  if fl.ip ≠ [] then ((fl.ip, none), [])
  else if fl.ipFile ≠ [] then findTargetByFile w fl.ipFile
  else if fl.ipMetadata then findTargetByMetadata w sess
  else (([], none), [])

/-- Lines 94-116 of `main`: the request built from the flags and the target. -/
def buildParams (fl : Flags) (target : GoString) : ChangeResourceRecordSetsInput :=
  { ChangeBatch :=
      { Changes :=
          [{ Action := str "UPSERT"
             ResourceRecordSet :=
               { Name := fl.domain
                 Type_ := str "A"
                 ResourceRecords := [{ Value := target }]
                 TTL := fl.ttl
                 Weight := 1
                 SetIdentifier := str "Arbitrary Id describing this change set" } }]
        Comment := str "Sample update." }
    HostedZoneId := fl.zoneID }

/-- Lines 120-134 and again 146-160 of `main`: what is printed for an error. -/
def printError (err : GoError) : List Event :=
  match err with
  | .awsError code message text orig =>
    [.Log (str "Error: " ++ code ++ str " " ++ message), .Log (str "Error: " ++ text)] ++
      (match orig with
       | some origText => [.Println origText]
       | none => [])
  | _ => [.Println err.Error]

/-- Lines 138-166 of `main`: after a successful submit.  Line 139 evaluates
`*resp.ChangeInfo.Comment` before it logs: a response without change info or
without comment ends the run there in a panic. -/
def afterSubmit (fl : Flags) (w : World) (sess : Session)
    (resp : ChangeResourceRecordSetsOutput) : List Event :=
  if fl.waitForIt then
    match resp.ChangeInfo with
    | none => [.Panic]
    | some info =>
      match info.Comment with
      | none => [.Panic]
      | some comment =>
        let changeInput : GetChangeInput := { Id := info.Id }
        [.Log (str "waiting changes to propagate: " ++ comment),
          .WaitUntilResourceRecordSetsChanged changeInput] ++
          (match w.WaitUntilResourceRecordSetsChanged sess changeInput with
           | some err => printError err
           | none => [.Log (str "change applied")])
  else [.Log (str "change sent to route53")]

/-- Function `main` (lines 62-167), after flag parsing: the events of the run. -/
def main (fl : Flags) (w : World) : List Event :=
  match w.NewSession with
  | .error err => [.NewSession, .Println (str "failed to create session, " ++ err.Error)]
  | .ok sess =>
    let resolved := resolveTarget fl w sess
    let target := resolved.1.1
    let params := buildParams fl target
    [.NewSession] ++ resolved.2 ++
      [.Log (str "setting " ++ fl.domain ++ str " to IP " ++ target ++ str " in zone " ++ fl.zoneID),
        .ChangeResourceRecordSets params] ++
      (match w.ChangeResourceRecordSets sess params with
       | .error err => printError err
       | .ok resp => afterSubmit fl w sess resp)

/-! ## What trimming means -/

/-- Function `utf8.AppendRune` on an empty buffer: the UTF-8 encoding of a
rune (a valid one; surrogates and values past U+10FFFF are not special-cased). -/
def EncodeRune (r : Nat) : GoString :=
  if r < 0x80 then [r]
  else if r < 0x800 then [0xC0 + r / 64, 0x80 + r % 64]
  else if r < 0x10000 then [0xE0 + r / 4096, 0x80 + r / 64 % 64, 0x80 + r % 64]
  else [0xF0 + r / 262144, 0x80 + r / 4096 % 64, 0x80 + r / 64 % 64, 0x80 + r % 64]

/-- The white-space characters of Unicode (the characters with the property
`White_Space`): tab, line feed, vertical tab, form feed, carriage return, space,
next line, no-break space, ogham space mark, en quad to hair space, line
separator, paragraph separator, narrow no-break space, medium mathematical
space, ideographic space. -/
def whiteSpaceChars : List Nat :=
  [0x09, 0x0A, 0x0B, 0x0C, 0x0D, 0x20, 0x85, 0xA0, 0x1680, 0x2000, 0x2001, 0x2002, 0x2003,
    0x2004, 0x2005, 0x2006, 0x2007, 0x2008, 0x2009, 0x200A, 0x2028, 0x2029, 0x202F, 0x205F,
    0x3000]

/-- White space: the UTF-8 encoding of a sequence of white-space characters. -/
inductive WhiteSpace : GoString → Prop where
  | nil : WhiteSpace []
  | cons (r : Nat) (rest : GoString) :
      r ∈ whiteSpaceChars → WhiteSpace rest → WhiteSpace (EncodeRune r ++ rest)

/-- The string begins with a white-space character. -/
def StartsWithSpace (s : GoString) : Prop :=
  ∃ r rest, r ∈ whiteSpaceChars ∧ s = EncodeRune r ++ rest

/-- The string ends with a white-space character. -/
def EndsWithSpace (s : GoString) : Prop :=
  ∃ r front, r ∈ whiteSpaceChars ∧ s = front ++ EncodeRune r

/-- The string `t` is `s` with all leading and trailing white space removed:
`s` is white space, then `t`, then white space, and `t` neither begins nor ends
with a white-space character. -/
def Trimmed (s t : GoString) : Prop :=
  ∃ pre suf, s = pre ++ t ++ suf ∧ WhiteSpace pre ∧ WhiteSpace suf ∧
    ¬ StartsWithSpace t ∧ ¬ EndsWithSpace t

/-- The byte offset at which `utf8.DecodeLastRuneInString` decodes: where its
backward search ends, not below 0. -/
def lastStart (s : GoString) : Nat :=
  (if backScan s (if (s.length : Int) - UTFMax < 0 then 0 else (s.length : Int) - UTFMax)
        UTFMax ((s.length : Int) - 1 - 1) < 0 then (0 : Int)
    else backScan s (if (s.length : Int) - UTFMax < 0 then 0 else (s.length : Int) - UTFMax)
        UTFMax ((s.length : Int) - 1 - 1)).toNat

/-- The rune at byte offset `start` of `s` and its width, as the loop of
`strings.indexFunc` reads it. -/
def runeAt (s : GoString) (start : Nat) : Nat × Nat :=
  if RuneSelf ≤ s.getD start 0 then DecodeRuneInString (s.drop start) else (s.getD start 0, 1)

/-- What the split function returns in one iteration of `Scan`, `(0, nil)` when
it is not called. -/
def Scanner.split (s : Scanner) : Nat × Option GoString :=
  if decide (0 < s.held.length ∨ s.err ≠ none) = true then
    ScanLines s.held (decide (s.err ≠ none))
  else (0, none)

/-- The scanner after the split function returned no token (`s.tok = token`
when it was called). -/
def Scanner.noToken (s : Scanner) : Scanner :=
  if decide (0 < s.held.length ∨ s.err ≠ none) = true then { s with tok := none } else s

/-- The length the buffer of a scanner has when it reads next: doubled (from
`startBufSize`, up to the limit) when it is full, unchanged otherwise. -/
def Scanner.newSize (s : Scanner) : Nat :=
  if s.held.length = s.buf then
    min (if s.buf * 2 = 0 then startBufSize else s.buf * 2) s.maxTokenSize
  else s.buf

/-- The scanner after the read of one iteration of `Scan`. -/
def Scanner.afterRead (s : Scanner) : Scanner :=
  { s with
    r := (s.r.Read (s.newSize - s.held.length)).2.2
    buf := s.newSize
    held := s.held ++ (s.r.Read (s.newSize - s.held.length)).1
    err := (s.r.Read (s.newSize - s.held.length)).2.1 }

/-- The runes of `s` from byte offset `start` on, as `for _, r := range s`
yields them (an invalid byte yields `RuneError`). -/
def runesLoop (s : GoString) : Nat → Nat → List Nat
  | 0, _ => []
  | fuel + 1, start =>
    if start < s.length then
      (runeAt s start).1 :: runesLoop s fuel (start + (runeAt s start).2)
    else []

/-- Conversion `[]rune(s)`: the runes of a string. -/
def runes (s : GoString) : List Nat := runesLoop s s.length 0

/-- The first line of a file's content: the bytes before the first `'\n'`, or
all of them when there is none. -/
def firstLine (content : GoString) : GoString := content.takeWhile (fun b => b != 10)

/-- The event is a call of `ChangeResourceRecordSets`. -/
def Event.isSubmit : Event → Bool
  | .ChangeResourceRecordSets _ => true
  | _ => false

/-- The event is a call of `WaitUntilResourceRecordSetsChanged`. -/
def Event.isWait : Event → Bool
  | .WaitUntilResourceRecordSetsChanged _ => true
  | _ => false

/-- An event that is neither a wait nor one of the two closing reports. -/
abbrev Quiet (ev : Event) : Prop :=
  (∀ i, ev ≠ .WaitUntilResourceRecordSetsChanged i) ∧
    ev ≠ .Log (str "change applied") ∧ ev ≠ .Log (str "change sent to route53")

/-! ## Sample inputs -/

/-- A world with working services: no file can be opened, the metadata service
answers `198.51.100.7`, the submit returns change `/change/C1` and the wait
succeeds. -/
def sampleWorld : World :=
  { NewSession := .ok ⟨0⟩
    Open := fun _ => .error (.errorString (str "open: no such file or directory"))
    Available := fun _ => true
    GetMetadata := fun _ _ => .ok (str "198.51.100.7")
    ChangeResourceRecordSets := fun _ _ =>
      .ok ⟨some ⟨some (str "/change/C1"), some (str "Sample update.")⟩⟩
    WaitUntilResourceRecordSetsChanged := fun _ _ => none }

/-- The flags `-domain example.com -zone Z123 -ttl 120 -ip 203.0.113.9`. -/
def sampleFlags : Flags :=
  { defaultFlags with
    domain := str "example.com", zoneID := str "Z123", ttl := 120, ip := str "203.0.113.9" }

/-- The flags `-ip-file /nonexistent`, everything else at its default. -/
def missingFileFlags : Flags := { defaultFlags with ipFile := str "/nonexistent" }

/-- The flags `-wait`, on top of `sampleFlags`. -/
def waitFlags : Flags := { sampleFlags with waitForIt := true }

/-- Like `sampleWorld`, but the submit fails with a structured provider error. -/
def refusingWorld : World :=
  { sampleWorld with
    ChangeResourceRecordSets := fun _ _ =>
      .error (.awsError (str "InvalidInput") (str "bad zone")
        (str "InvalidInput: bad zone") none) }

/-- Like `sampleWorld`, but the response to the submit carries a change
identifier and no comment. -/
def noCommentWorld : World :=
  { sampleWorld with
    ChangeResourceRecordSets := fun _ _ => .ok ⟨some ⟨some (str "/change/C1"), none⟩⟩ }

/-- Like `sampleWorld`, but the metadata service is unavailable. -/
def noMetadataWorld : World := { sampleWorld with Available := fun _ => false }

/-- Like `sampleWorld`, but every path opens a regular file that holds
`192.0.2.5` and a newline. -/
def fileWorld : World :=
  { sampleWorld with Open := fun _ => .ok ⟨str "192.0.2.5\n", none, []⟩ }

/-- Like `sampleWorld`, but every path opens a regular file whose first line is
blank (a space, a carriage return, a newline, then more text). -/
def blankFileWorld : World :=
  { sampleWorld with Open := fun _ => .ok ⟨str " \r\n192.0.2.5\n", none, []⟩ }

/-- Like `sampleWorld`, but every path opens a regular file of 65536 letters
`a` and no newline. -/
def longLineWorld : World :=
  { sampleWorld with Open := fun _ => .ok ⟨List.replicate 65536 97, none, []⟩ }

/-- The content of a file whose first line has white space on both sides of
`192.0.2.5`: a space and a tab before it; U+3000 (three bytes) and a carriage
return after it; and a second line. -/
def paddedContent : GoString :=
  str " \t192.0.2.5" ++ [0xE3, 0x80, 0x80] ++ str "\r\n10.0.0.1\n"

/-- Like `sampleWorld`, but every path opens a regular file that holds
`paddedContent`. -/
def paddedFileWorld : World :=
  { sampleWorld with Open := fun _ => .ok ⟨paddedContent, none, []⟩ }

/-- The flags `-ip-file /etc/ip`, everything else at its default. -/
def fileFlags : Flags := { defaultFlags with ipFile := str "/etc/ip" }

/-! ## The library functions -/

theorem decode_width_pos (s : GoString) (h : s ≠ []) : 1 ≤ (DecodeRuneInString s).2 := by
  rcases s with _ | ⟨a, _ | ⟨b, _ | ⟨c, _ | ⟨d, t⟩⟩⟩⟩
  · exact absurd rfl h
  all_goals
    simp only [DecodeRuneInString]
    split_ifs <;> simp

theorem decode_width_le (s : GoString) : (DecodeRuneInString s).2 ≤ s.length := by
  rcases s with _ | ⟨a, _ | ⟨b, _ | ⟨c, _ | ⟨d, t⟩⟩⟩⟩
  · simp [DecodeRuneInString]
  all_goals
    simp only [DecodeRuneInString]
    split_ifs <;> simp

theorem decode_append_single (s : GoString) (c : Nat) (h : s ≠ []) (hc : isCont c = false) :
    DecodeRuneInString (s ++ [c]) = DecodeRuneInString s := by
  rcases s with _ | ⟨a, _ | ⟨b, _ | ⟨c', _ | ⟨d, t⟩⟩⟩⟩
  · exact absurd rfl h
  all_goals
    simp only [DecodeRuneInString, List.cons_append, List.nil_append, hc, Bool.not_false,
      if_true, ite_self, Bool.false_eq_true, if_false]

theorem isCont_of_lt {c : Nat} (hc : c < RuneSelf) : isCont c = false := by
  unfold RuneSelf at hc
  simp [isCont]
  omega

theorem indexFuncLoop_succ (s : GoString) (f : Nat → Bool) (truth : Bool) (fuel start : Nat) :
    indexFuncLoop s f truth (fuel + 1) start =
      if start < s.length then
        if f (runeAt s start).1 == truth then (start : Int)
        else indexFuncLoop s f truth fuel (start + (runeAt s start).2)
      else -1 := rfl

theorem lastIndexFuncLoop_succ (s : GoString) (f : Nat → Bool) (truth : Bool) (fuel i : Nat) :
    lastIndexFuncLoop s f truth (fuel + 1) i =
      if 0 < i then
        if f (DecodeLastRuneInString (s.take i)).1 == truth then
          ((i - (DecodeLastRuneInString (s.take i)).2 : Nat) : Int)
        else lastIndexFuncLoop s f truth fuel (i - (DecodeLastRuneInString (s.take i)).2)
      else -1 := rfl

/-- A rune read inside the string is at least one byte wide and ends inside it. -/
theorem runeAt_width (s : GoString) (start : Nat) (h : start < s.length) :
    1 ≤ (runeAt s start).2 ∧ start + (runeAt s start).2 ≤ s.length := by
  have hne : s.drop start ≠ [] := by
    intro h0
    have := congrArg List.length h0
    simp at this
    omega
  unfold runeAt
  split_ifs
  · refine ⟨decode_width_pos _ hne, ?_⟩
    have := decode_width_le (s.drop start)
    simp at this
    omega
  · simp
    omega

theorem runeAt_append (s : GoString) (c start : Nat) (h : start < s.length)
    (hc : c < RuneSelf) : runeAt (s ++ [c]) start = runeAt s start := by
  have hne : s.drop start ≠ [] := by
    intro h0
    have := congrArg List.length h0
    simp at this
    omega
  unfold runeAt
  rw [List.getD_append _ _ _ _ h, List.drop_append_of_le_length (le_of_lt h),
    decode_append_single _ _ hne (isCont_of_lt hc)]

theorem runeAt_last (s : GoString) (c : Nat) (hc : c < RuneSelf) :
    runeAt (s ++ [c]) s.length = (c, 1) := by
  unfold runeAt
  rw [List.getD_append_right _ _ _ _ (le_refl _)]
  simp [not_le.mpr hc]

theorem indexFuncLoop_range (s : GoString) (f : Nat → Bool) (truth : Bool) :
    ∀ fuel start, indexFuncLoop s f truth fuel start = -1 ∨
      ∃ i : Nat, start ≤ i ∧ i < s.length ∧ indexFuncLoop s f truth fuel start = (i : Int) := by
  intro fuel
  induction fuel with
  | zero => intro start; left; rfl
  | succ n ih =>
    intro start
    rw [indexFuncLoop_succ]
    by_cases h1 : start < s.length
    · rw [if_pos h1]
      by_cases h2 : (f (runeAt s start).1 == truth) = true
      · rw [if_pos h2]
        right
        exact ⟨start, le_refl _, h1, rfl⟩
      · rw [if_neg h2]
        rcases ih (start + (runeAt s start).2) with h | ⟨i, hi1, hi2, hi3⟩
        · left; exact h
        · right
          exact ⟨i, by omega, hi2, hi3⟩
    · rw [if_neg h1]
      left; rfl

/-- Appending a white-space byte below `RuneSelf` does not move the first rune
that is not white space. -/
theorem indexFuncLoop_append (t : GoString) (f : Nat → Bool) (c : Nat) (hc : c < RuneSelf)
    (hf : f c = true) :
    ∀ fuel start, start ≤ t.length → t.length - start ≤ fuel →
      indexFuncLoop (t ++ [c]) f false (fuel + 1) start = indexFuncLoop t f false fuel start := by
  intro fuel
  induction fuel with
  | zero =>
    intro start h1 h2
    have hst : start = t.length := by omega
    subst hst
    rw [indexFuncLoop_succ, runeAt_last t c hc]
    simp [hf, indexFuncLoop]
  | succ n ih =>
    intro start h1 h2
    rw [indexFuncLoop_succ, indexFuncLoop_succ t]
    by_cases hlt : start < t.length
    · have hw := runeAt_width t start hlt
      rw [runeAt_append t c start hlt hc, if_pos hlt, if_pos (by simp; omega)]
      by_cases h3 : (f (runeAt t start).1 == false) = true
      · rw [if_pos h3, if_pos h3]
      · rw [if_neg h3, if_neg h3]
        exact ih _ hw.2 (by omega)
    · have hst : start = t.length := by omega
      subst hst
      rw [runeAt_last t c hc, if_neg hlt, if_pos (by simp)]
      simp only [hf]
      rw [if_neg (by decide), indexFuncLoop_succ, if_neg (by simp)]

theorem indexFunc_append (t : GoString) (f : Nat → Bool) (c : Nat) (hc : c < RuneSelf)
    (hf : f c = true) : indexFunc (t ++ [c]) f false = indexFunc t f false := by
  unfold indexFunc
  rw [List.length_append, List.length_singleton]
  exact indexFuncLoop_append t f c hc hf t.length 0 (Nat.zero_le _) (by omega)

theorem TrimLeftFunc_append (t : GoString) (f : Nat → Bool) (c : Nat) (hc : c < RuneSelf)
    (hf : f c = true) :
    TrimLeftFunc (t ++ [c]) f =
      if indexFunc t f false = -1 then [] else TrimLeftFunc t f ++ [c] := by
  unfold TrimLeftFunc
  simp only [indexFunc_append t f c hc hf]
  rcases indexFuncLoop_range t f false t.length 0 with h | ⟨i, _, hi2, hi3⟩
  · have h' : indexFunc t f false = -1 := h
    rw [h']
    simp
  · have h' : indexFunc t f false = (i : Int) := hi3
    rw [h']
    have hne : ¬ ((i : Int) = -1) := by omega
    rw [if_neg hne, if_neg hne, if_neg hne]
    simp only [Int.toNat_ofNat]
    exact List.drop_append_of_le_length (le_of_lt hi2)

theorem backScan_le (s : GoString) (lim : Int) :
    ∀ fuel start, backScan s lim fuel start ≤ start := by
  intro fuel
  induction fuel with
  | zero => intro start; exact le_refl _
  | succ n ih =>
    intro start
    unfold backScan
    split_ifs
    · exact le_refl _
    · have := ih (start - 1)
      omega
    · exact le_refl _

theorem DecodeLastRuneInString_eq (s : GoString) :
    DecodeLastRuneInString s =
      if s.length = 0 then (RuneError, 0)
      else if s.getD (s.length - 1) 0 < RuneSelf then (s.getD (s.length - 1) 0, 1)
      else
        if (if backScan s (if (s.length : Int) - UTFMax < 0 then 0 else (s.length : Int) - UTFMax)
                UTFMax ((s.length : Int) - 1 - 1) < 0 then 0
            else backScan s (if (s.length : Int) - UTFMax < 0 then 0 else (s.length : Int) - UTFMax)
                UTFMax ((s.length : Int) - 1 - 1)) +
            ((DecodeRuneInString (s.drop
              (if backScan s (if (s.length : Int) - UTFMax < 0 then 0 else (s.length : Int) - UTFMax)
                  UTFMax ((s.length : Int) - 1 - 1) < 0 then 0
                else backScan s (if (s.length : Int) - UTFMax < 0 then 0
                    else (s.length : Int) - UTFMax)
                  UTFMax ((s.length : Int) - 1 - 1)).toNat)).2 : Int) ≠ (s.length : Int)
        then (RuneError, 1)
        else DecodeRuneInString (s.drop
              (if backScan s (if (s.length : Int) - UTFMax < 0 then 0 else (s.length : Int) - UTFMax)
                  UTFMax ((s.length : Int) - 1 - 1) < 0 then 0
                else backScan s (if (s.length : Int) - UTFMax < 0 then 0
                    else (s.length : Int) - UTFMax)
                  UTFMax ((s.length : Int) - 1 - 1)).toNat) := rfl

theorem decodeLast_width_pos (s : GoString) (h : s ≠ []) :
    1 ≤ (DecodeLastRuneInString s).2 := by
  have hlen : 0 < s.length := List.length_pos.mpr h
  rw [DecodeLastRuneInString_eq]
  rw [if_neg (by omega)]
  by_cases h1 : s.getD (s.length - 1) 0 < RuneSelf
  · rw [if_pos h1]
  · rw [if_neg h1]
    have hb := backScan_le s (if (s.length : Int) - UTFMax < 0 then 0 else (s.length : Int) - UTFMax)
      UTFMax ((s.length : Int) - 1 - 1)
    generalize backScan s (if (s.length : Int) - UTFMax < 0 then 0 else (s.length : Int) - UTFMax)
      UTFMax ((s.length : Int) - 1 - 1) = bs at hb ⊢
    split_ifs with h2 h3 h4
    · exact le_refl _
    · push_neg at h3
      omega
    · exact le_refl _
    · push_neg at h4
      omega

theorem decodeLast_append (t : GoString) (c : Nat) (hc : c < RuneSelf) :
    DecodeLastRuneInString (t ++ [c]) = (c, 1) := by
  rw [DecodeLastRuneInString_eq]
  have h1 : (t ++ [c]).getD ((t ++ [c]).length - 1) 0 = c := by
    rw [List.length_append, List.length_singleton, Nat.add_sub_cancel,
      List.getD_append_right _ _ _ _ (le_refl _)]
    simp
  rw [h1, if_neg (by simp), if_pos hc]

theorem lastIndexFuncLoop_append (u x : GoString) (f : Nat → Bool) (truth : Bool) :
    ∀ fuel i, i ≤ u.length →
      lastIndexFuncLoop (u ++ x) f truth fuel i = lastIndexFuncLoop u f truth fuel i := by
  intro fuel
  induction fuel with
  | zero => intro i _; rfl
  | succ n ih =>
    intro i hi
    rw [lastIndexFuncLoop_succ, lastIndexFuncLoop_succ u, List.take_append_of_le_length hi]
    by_cases h0 : 0 < i
    · rw [if_pos h0, if_pos h0]
      by_cases h1 : (f (DecodeLastRuneInString (u.take i)).1 == truth) = true
      · rw [if_pos h1, if_pos h1]
      · rw [if_neg h1, if_neg h1]
        exact ih _ (by omega)
    · rw [if_neg h0, if_neg h0]

theorem lastIndexFuncLoop_range (s : GoString) (f : Nat → Bool) (truth : Bool) :
    ∀ fuel i, i ≤ s.length → lastIndexFuncLoop s f truth fuel i = -1 ∨
      ∃ j : Nat, j < i ∧ lastIndexFuncLoop s f truth fuel i = (j : Int) := by
  intro fuel
  induction fuel with
  | zero => intro i _; left; rfl
  | succ n ih =>
    intro i hi
    rw [lastIndexFuncLoop_succ]
    by_cases h0 : 0 < i
    · rw [if_pos h0]
      have hne : s.take i ≠ [] := by
        intro h
        have := congrArg List.length h
        rw [List.length_take, List.length_nil] at this
        omega
      have hw := decodeLast_width_pos _ hne
      by_cases h1 : (f (DecodeLastRuneInString (s.take i)).1 == truth) = true
      · rw [if_pos h1]
        right
        exact ⟨_, by omega, rfl⟩
      · rw [if_neg h1]
        rcases ih (i - (DecodeLastRuneInString (s.take i)).2) (by omega) with h | ⟨j, hj1, hj2⟩
        · left; exact h
        · right
          exact ⟨j, by omega, hj2⟩
    · rw [if_neg h0]
      left; rfl

theorem lastIndexFunc_append (u : GoString) (f : Nat → Bool) (c : Nat) (hc : c < RuneSelf)
    (hf : f c = true) : lastIndexFunc (u ++ [c]) f false = lastIndexFunc u f false := by
  unfold lastIndexFunc
  rw [List.length_append, List.length_singleton, lastIndexFuncLoop_succ, if_pos (by omega)]
  have ht : (u ++ [c]).take (u.length + 1) = u ++ [c] := by
    apply List.take_of_length_le
    simp
  rw [ht, decodeLast_append u c hc]
  simp only [hf]
  rw [if_neg (by decide)]
  exact lastIndexFuncLoop_append u [c] f false u.length u.length (le_refl _)

theorem TrimRightFunc_append (u : GoString) (f : Nat → Bool) (c : Nat) (hc : c < RuneSelf)
    (hf : f c = true) : TrimRightFunc (u ++ [c]) f = TrimRightFunc u f := by
  unfold TrimRightFunc
  simp only [lastIndexFunc_append u f c hc hf]
  rcases lastIndexFuncLoop_range u f false u.length u.length (le_refl _) with h | ⟨j, hj1, hj2⟩
  · have h' : lastIndexFunc u f false = -1 := h
    rw [h']
    simp
  · have h' : lastIndexFunc u f false = (j : Int) := hj2
    rw [h']
    simp only [Int.toNat_ofNat, Int.natCast_nonneg, true_and]
    rw [List.getD_append _ _ _ _ hj1, List.drop_append_of_le_length (le_of_lt hj1)]
    have hne : u.drop j ≠ [] := by
      intro h
      have := congrArg List.length h
      simp at this
      omega
    rw [decode_append_single _ _ hne (isCont_of_lt hc)]
    have hwl := decode_width_le (u.drop j)
    rw [List.length_drop] at hwl
    split_ifs
    · have e1 : ((j : Int) + ((DecodeRuneInString (u.drop j)).2 : Int)).toNat =
          j + (DecodeRuneInString (u.drop j)).2 := by omega
      rw [e1]
      exact List.take_append_of_le_length (by omega)
    · have e1 : ((j : Int) + 1).toNat = j + 1 := by omega
      rw [e1]
      exact List.take_append_of_le_length (by omega)

theorem TrimFunc_append (t : GoString) (f : Nat → Bool) (c : Nat) (hc : c < RuneSelf)
    (hf : f c = true) : TrimFunc (t ++ [c]) f = TrimFunc t f := by
  unfold TrimFunc
  rw [TrimLeftFunc_append t f c hc hf]
  by_cases h : indexFunc t f false = -1
  · rw [if_pos h]
    unfold TrimLeftFunc
    simp only [h, if_true]
  · rw [if_neg h]
    exact TrimRightFunc_append _ f c hc hf

/-- Dropping a terminal carriage return does not change what `TrimSpace` returns. -/
theorem TrimSpace_dropCR (l : GoString) : TrimSpace (dropCR l) = TrimSpace l := by
  unfold dropCR
  split_ifs with h
  · have hne : l ≠ [] := List.length_pos.mp h.1
    have hl : l = l.take (l.length - 1) ++ [13] := by
      have h1 := (List.dropLast_append_getLast hne).symm
      have h2 : l.getLast hne = 13 := by
        rw [← h.2, List.getLast_eq_getElem, List.getD_eq_getElem _ _ (by omega)]
      rw [h2, List.dropLast_eq_take] at h1
      exact h1
    conv_rhs => rw [hl]
    exact (TrimFunc_append _ IsSpace 13 (by decide) (by decide)).symm
  · rfl

theorem indexFuncLoop_all (s : GoString) (f : Nat → Bool) :
    ∀ fuel start, (runesLoop s fuel start).all f = true →
      indexFuncLoop s f false fuel start = -1 := by
  intro fuel
  induction fuel with
  | zero => intro start _; rfl
  | succ n ih =>
    intro start h
    rw [indexFuncLoop_succ]
    unfold runesLoop at h
    by_cases h1 : start < s.length
    · rw [if_pos h1] at h ⊢
      rw [List.all_cons, Bool.and_eq_true] at h
      rw [if_neg (by simp [h.1])]
      exact ih _ h.2
    · rw [if_neg h1]

/-- A string whose runes are all white space is trimmed to the empty string. -/
theorem TrimSpace_of_all_space (s : GoString) (h : (runes s).all IsSpace = true) :
    TrimSpace s = [] := by
  have hi : indexFunc s IsSpace false = -1 := indexFuncLoop_all s IsSpace s.length 0 h
  unfold TrimSpace TrimFunc TrimLeftFunc
  simp only [hi, if_true]
  rfl

/-! ## `TrimSpace` removes all white space at both ends -/

/-- The white-space characters, one by one. -/
theorem IsSpace_cases {r : Nat} (h : IsSpace r = true) :
    r = 9 ∨ r = 10 ∨ r = 11 ∨ r = 12 ∨ r = 13 ∨ r = 32 ∨ r = 0x85 ∨ r = 0xA0 ∨ r = 0x1680 ∨
      r = 0x2000 ∨ r = 0x2001 ∨ r = 0x2002 ∨ r = 0x2003 ∨ r = 0x2004 ∨ r = 0x2005 ∨
      r = 0x2006 ∨ r = 0x2007 ∨ r = 0x2008 ∨ r = 0x2009 ∨ r = 0x200a ∨
      r = 0x2028 ∨ r = 0x2029 ∨ r = 0x202f ∨ r = 0x205f ∨ r = 0x3000 := by
  unfold IsSpace at h
  split_ifs at h
  · simp only [Bool.or_eq_true, decide_eq_true_eq] at h
    omega
  · simp only [Bool.or_eq_true, Bool.and_eq_true, decide_eq_true_eq] at h
    omega

/-- Function `unicode.IsSpace` holds of the white-space characters of Unicode
and of nothing else. -/
theorem IsSpace_iff_mem {r : Nat} : IsSpace r = true ↔ r ∈ whiteSpaceChars := by
  constructor
  · intro h
    rcases IsSpace_cases h with h | h | h | h | h | h | h | h | h | h | h | h | h | h | h | h | h |
      h | h | h | h | h | h | h | h <;> subst h <;> decide
  · intro h
    simp only [whiteSpaceChars, List.mem_cons, List.mem_singleton, List.not_mem_nil,
      or_false] at h
    rcases h with h | h | h | h | h | h | h | h | h | h | h | h | h | h | h | h | h |
      h | h | h | h | h | h | h | h <;> subst h <;> decide

/-- Decoding the encoding of a white-space character gives it back, with the
length of the encoding as width, whatever follows. -/
theorem decode_encode_space {r : Nat} (h : IsSpace r = true) (rest : GoString) :
    DecodeRuneInString (EncodeRune r ++ rest) = (r, (EncodeRune r).length) := by
  rcases IsSpace_cases h with h | h | h | h | h | h | h | h | h | h | h | h | h | h | h | h | h |
    h | h | h | h | h | h | h | h <;> subst h <;> rfl

theorem encode_space_shape {r : Nat} (h : IsSpace r = true) :
    ∃ c t, EncodeRune r = c :: t ∧ isCont c = false ∧ (c < RuneSelf → t = []) := by
  rcases IsSpace_cases h with h | h | h | h | h | h | h | h | h | h | h | h | h | h | h | h | h |
    h | h | h | h | h | h | h | h <;> subst h <;>
    exact ⟨_, _, rfl, by decide, by decide⟩

/-- White space is empty or begins with a byte that starts a rune. -/
theorem WhiteSpace_head {s : GoString} (h : WhiteSpace s) :
    s = [] ∨ ∃ c t, s = c :: t ∧ isCont c = false := by
  cases h with
  | nil => left; rfl
  | cons r rest hr _ =>
    obtain ⟨c, t, he, hc, _⟩ := encode_space_shape (IsSpace_iff_mem.mpr hr)
    right
    exact ⟨c, t ++ rest, by rw [he]; rfl, hc⟩

theorem WhiteSpace_append {a b : GoString} (ha : WhiteSpace a) (hb : WhiteSpace b) :
    WhiteSpace (a ++ b) := by
  induction ha with
  | nil => exact hb
  | cons r rest hr _ ih =>
    rw [List.append_assoc]
    exact WhiteSpace.cons r _ hr ih

theorem WhiteSpace_single {r : Nat} (h : IsSpace r = true) : WhiteSpace (EncodeRune r) := by
  have := WhiteSpace.cons r [] (IsSpace_iff_mem.mp h) WhiteSpace.nil
  rwa [List.append_nil] at this
theorem isCont_iff {b : Nat} : isCont b = true ↔ 0x80 ≤ b ∧ b ≤ 0xBF := by
  unfold isCont
  simp

theorem encode_ascii (a : Nat) (h : a < 0x80) : EncodeRune a = [a] := by
  unfold EncodeRune
  rw [if_pos h]

theorem encode_two (a b : Nat) (h1 : 0xC2 ≤ a) (h2 : a < 0xE0) (h3 : isCont b = true) :
    EncodeRune (a % 32 * 64 + b % 64) = [a, b] := by
  rw [isCont_iff] at h3
  unfold EncodeRune
  rw [if_neg (by omega), if_pos (by omega)]
  congr 1
  · omega
  · congr 1
    omega

theorem encode_three (a b c : Nat) (h1 : 0xE0 ≤ a) (h2 : a < 0xF0) (h3 : 0x80 ≤ b)
    (h4 : b ≤ 0xBF) (h5 : a = 0xE0 → 0xA0 ≤ b) (h6 : ¬ (!isCont c) = true) :
    EncodeRune (a % 16 * 4096 + b % 64 * 64 + c % 64) = [a, b, c] := by
  simp only [Bool.not_eq_true', Bool.not_eq_false] at h6
  rw [isCont_iff] at h6
  unfold EncodeRune
  rw [if_neg (by omega), if_neg (by omega), if_pos (by omega)]
  congr 1
  · omega
  · congr 1
    · omega
    · congr 1
      omega

theorem four_not_space (a b c d : Nat) (h1 : 0xF0 ≤ a) (h2 : a < 0xF5) (h3 : 0x80 ≤ b)
    (h4 : a = 0xF0 → 0x90 ≤ b) (h5 : b ≤ 0xBF) :
    IsSpace (a % 8 * 262144 + b % 64 * 4096 + c % 64 * 64 + d % 64) = false := by
  have hb : 0x10000 ≤ a % 8 * 262144 + b % 64 * 4096 + c % 64 * 64 + d % 64 := by omega
  cases hs : IsSpace (a % 8 * 262144 + b % 64 * 4096 + c % 64 * 64 + d % 64) with
  | false => rfl
  | true =>
    have := IsSpace_cases hs
    omega

theorem decode_ascii (a : Nat) (rest : GoString) (h : a < 0x80) :
    DecodeRuneInString (a :: rest) = (a, 1) := by
  simp only [DecodeRuneInString]
  rw [if_pos h]

theorem decode_bad (a : Nat) (rest : GoString) (h1 : ¬ a < 0x80) (h2 : a < 0xC2 ∨ ¬ a < 0xF5) :
    DecodeRuneInString (a :: rest) = (RuneError, 1) := by
  simp only [DecodeRuneInString]
  rcases h2 with h2 | h2
  · rw [if_neg h1, if_pos h2]
  · rw [if_neg h1, if_neg (by omega), if_neg (by omega), if_neg (by omega), if_neg h2]

theorem decode_two_nil (a : Nat) (h1 : ¬ a < 0xC2) (h2 : a < 0xE0) :
    DecodeRuneInString [a] = (RuneError, 1) := by
  simp only [DecodeRuneInString]
  rw [if_neg (by omega), if_neg h1, if_pos h2]

theorem decode_two (a b : Nat) (rest : GoString) (h1 : ¬ a < 0xC2) (h2 : a < 0xE0) :
    DecodeRuneInString (a :: b :: rest) =
      if isCont b = true then (a % 32 * 64 + b % 64, 2) else (RuneError, 1) := by
  simp only [DecodeRuneInString]
  rw [if_neg (by omega), if_neg h1, if_pos h2]

theorem decode_three_nil (a : Nat) (h1 : ¬ a < 0xE0) (h2 : a < 0xF0) :
    DecodeRuneInString [a] = (RuneError, 1) := by
  simp only [DecodeRuneInString]
  rw [if_neg (by omega), if_neg (by omega), if_neg h1, if_pos h2]

theorem decode_three_one (a b : Nat) (h1 : ¬ a < 0xE0) (h2 : a < 0xF0) :
    DecodeRuneInString [a, b] = (RuneError, 1) := by
  simp only [DecodeRuneInString]
  rw [if_neg (by omega), if_neg (by omega), if_neg h1, if_pos h2]

theorem decode_three (a b c : Nat) (rest : GoString) (h1 : ¬ a < 0xE0) (h2 : a < 0xF0) :
    DecodeRuneInString (a :: b :: c :: rest) =
      if b < (if a = 0xE0 then 0xA0 else 0x80) ∨ (if a = 0xED then 0x9F else 0xBF) < b then
        (RuneError, 1)
      else if (!isCont c) = true then (RuneError, 1)
      else (a % 16 * 4096 + b % 64 * 64 + c % 64, 3) := by
  simp only [DecodeRuneInString]
  rw [if_neg (by omega), if_neg (by omega), if_neg h1, if_pos h2]

theorem decode_four_short (a : Nat) (rest : GoString) (h1 : ¬ a < 0xF0) (h2 : a < 0xF5)
    (h3 : rest.length < 3) : DecodeRuneInString (a :: rest) = (RuneError, 1) := by
  rcases rest with _ | ⟨b, _ | ⟨c, _ | ⟨d, t⟩⟩⟩
  · simp only [DecodeRuneInString]
    rw [if_neg (by omega), if_neg (by omega), if_neg (by omega), if_neg h1, if_pos h2]
  · simp only [DecodeRuneInString]
    rw [if_neg (by omega), if_neg (by omega), if_neg (by omega), if_neg h1, if_pos h2]
  · simp only [DecodeRuneInString]
    rw [if_neg (by omega), if_neg (by omega), if_neg (by omega), if_neg h1, if_pos h2]
  · simp at h3
    omega

theorem decode_four (a b c d : Nat) (rest : GoString) (h1 : ¬ a < 0xF0) (h2 : a < 0xF5) :
    DecodeRuneInString (a :: b :: c :: d :: rest) =
      if b < (if a = 0xF0 then 0x90 else 0x80) ∨ (if a = 0xF4 then 0x8F else 0xBF) < b then
        (RuneError, 1)
      else if (!isCont c) = true then (RuneError, 1)
      else if (!isCont d) = true then (RuneError, 1)
      else (a % 8 * 262144 + b % 64 * 4096 + c % 64 * 64 + d % 64, 4) := by
  simp only [DecodeRuneInString]
  rw [if_neg (by omega), if_neg (by omega), if_neg (by omega), if_neg h1, if_pos h2]

/-- What `DecodeRuneInString` returns: a failure of width at most 1, a
single-byte rune, or a rune of two, three or four well-formed bytes. -/
theorem decode_cases (t : GoString) :
    ((DecodeRuneInString t).1 = RuneError ∧ (DecodeRuneInString t).2 ≤ 1) ∨
    (∃ a rest, t = a :: rest ∧ a < 0x80 ∧ DecodeRuneInString t = (a, 1)) ∨
    (∃ a b rest, t = a :: b :: rest ∧ ¬ a < 0xC2 ∧ a < 0xE0 ∧ isCont b = true ∧
      DecodeRuneInString t = (a % 32 * 64 + b % 64, 2)) ∨
    (∃ a b c rest, t = a :: b :: c :: rest ∧ ¬ a < 0xE0 ∧ a < 0xF0 ∧
      ¬ (b < (if a = 0xE0 then 0xA0 else 0x80) ∨ (if a = 0xED then 0x9F else 0xBF) < b) ∧
      isCont c = true ∧
      DecodeRuneInString t = (a % 16 * 4096 + b % 64 * 64 + c % 64, 3)) ∨
    (∃ a b c d rest, t = a :: b :: c :: d :: rest ∧ ¬ a < 0xF0 ∧ a < 0xF5 ∧
      ¬ (b < (if a = 0xF0 then 0x90 else 0x80) ∨ (if a = 0xF4 then 0x8F else 0xBF) < b) ∧
      isCont c = true ∧ isCont d = true ∧
      DecodeRuneInString t =
        (a % 8 * 262144 + b % 64 * 4096 + c % 64 * 64 + d % 64, 4)) := by
  have bad : ∀ x : GoString, DecodeRuneInString x = (RuneError, 1) →
      (DecodeRuneInString x).1 = RuneError ∧ (DecodeRuneInString x).2 ≤ 1 := by
    intro x hx
    rw [hx]
    exact ⟨rfl, le_refl _⟩
  rcases t with _ | ⟨a, rest⟩
  · left
    exact ⟨rfl, by decide⟩
  by_cases h1 : a < 0x80
  · right; left
    exact ⟨a, rest, rfl, h1, decode_ascii a rest h1⟩
  by_cases h2 : a < 0xC2
  · left
    exact bad _ (decode_bad a rest h1 (Or.inl h2))
  by_cases h3 : a < 0xE0
  · rcases rest with _ | ⟨b, rest⟩
    · left
      exact bad _ (decode_two_nil a h2 h3)
    · by_cases hb : isCont b = true
      · right; right; left
        refine ⟨a, b, rest, rfl, h2, h3, hb, ?_⟩
        rw [decode_two a b rest h2 h3, if_pos hb]
      · left
        apply bad
        rw [decode_two a b rest h2 h3, if_neg hb]
  by_cases h4 : a < 0xF0
  · rcases rest with _ | ⟨b, _ | ⟨c, rest⟩⟩
    · left
      exact bad _ (decode_three_nil a h3 h4)
    · left
      exact bad _ (decode_three_one a b h3 h4)
    · by_cases hb : b < (if a = 0xE0 then 0xA0 else 0x80) ∨ (if a = 0xED then 0x9F else 0xBF) < b
      · left
        apply bad
        rw [decode_three a b c rest h3 h4, if_pos hb]
      · by_cases hc : isCont c = true
        · right; right; right; left
          refine ⟨a, b, c, rest, rfl, h3, h4, hb, hc, ?_⟩
          rw [decode_three a b c rest h3 h4, if_neg hb, if_neg (by simp [hc])]
        · left
          apply bad
          rw [decode_three a b c rest h3 h4, if_neg hb, if_pos (by simpa using hc)]
  by_cases h5 : a < 0xF5
  · by_cases hlen : rest.length < 3
    · left
      exact bad _ (decode_four_short a rest h4 h5 hlen)
    · rcases rest with _ | ⟨b, _ | ⟨c, _ | ⟨d, rest⟩⟩⟩
      · exact absurd (by simp) hlen
      · exact absurd (by simp) hlen
      · exact absurd (by simp) hlen
      · by_cases hb : b < (if a = 0xF0 then 0x90 else 0x80) ∨
            (if a = 0xF4 then 0x8F else 0xBF) < b
        · left
          apply bad
          rw [decode_four a b c d rest h4 h5, if_pos hb]
        · by_cases hc : isCont c = true
          · by_cases hd : isCont d = true
            · right; right; right; right
              refine ⟨a, b, c, d, rest, rfl, h4, h5, hb, hc, hd, ?_⟩
              rw [decode_four a b c d rest h4 h5, if_neg hb, if_neg (by simp [hc]),
                if_neg (by simp [hd])]
            · left
              apply bad
              rw [decode_four a b c d rest h4 h5, if_neg hb, if_neg (by simp [hc]),
                if_pos (by simpa using hd)]
          · left
            apply bad
            rw [decode_four a b c d rest h4 h5, if_neg hb, if_pos (by simpa using hc)]
  · left
    exact bad _ (decode_bad a rest h1 (Or.inr h5))

/-- A decoded white-space character stands in the string as its encoding. -/
theorem decode_space (t : GoString) (h : IsSpace (DecodeRuneInString t).1 = true) :
    t = EncodeRune (DecodeRuneInString t).1 ++ t.drop (DecodeRuneInString t).2 := by
  rcases decode_cases t with ⟨h1, _⟩ | ⟨a, rest, rfl, h1, h2⟩ | ⟨a, b, rest, rfl, h1, h2, h3, h4⟩ |
    ⟨a, b, c, rest, rfl, h1, h2, h3, h4, h5⟩ | ⟨a, b, c, d, rest, rfl, h1, h2, h3, h4, h5, h6⟩
  · rw [h1] at h
    exact absurd h (by decide)
  · rw [h2, encode_ascii a h1]
    rfl
  · rw [h4, encode_two a b (by omega) h2 h3]
    rfl
  · rw [h5]
    have hb : 0x80 ≤ b ∧ b ≤ 0xBF ∧ (a = 0xE0 → 0xA0 ≤ b) := by
      split_ifs at h3 <;> omega
    rw [encode_three a b c (by omega) h2 hb.1 hb.2.1 hb.2.2 (by simp [h4])]
    rfl
  · rw [h6] at h
    have hb : 0x80 ≤ b ∧ b ≤ 0xBF ∧ (a = 0xF0 → 0x90 ≤ b) := by
      split_ifs at h3 <;> omega
    rw [four_not_space a b c d (by omega) h2 hb.1 hb.2.2 hb.2.1] at h
    exact absurd h Bool.false_ne_true

/-- A byte that is no single-byte rune, followed by nothing or by a byte that
starts a rune, is decoded with width 1. -/
theorem decode_width_one (b : Nat) (rest : GoString) (hb : ¬ b < 0x80)
    (hr : rest = [] ∨ ∃ c t, rest = c :: t ∧ isCont c = false) :
    (DecodeRuneInString (b :: rest)).2 = 1 := by
  rcases decode_cases (b :: rest) with ⟨_, h2⟩ | ⟨a, r, he, h1, _⟩ |
    ⟨a, c, r, he, _, _, h3, _⟩ | ⟨a, c, c', r, he, h1, h2, h3, _, _⟩ |
    ⟨a, c, c', d, r, he, h1, h2, h3, _, _, _⟩
  · have := decode_width_pos (b :: rest) (List.cons_ne_nil _ _)
    omega
  · injection he with he1 he2
    subst he1
    exact absurd h1 hb
  · injection he with he1 he2
    rcases hr with hr | ⟨x, t, hr, hx⟩
    · rw [hr] at he2
      exact absurd he2 (by simp)
    · rw [hr] at he2
      injection he2 with he3 _
      subst he3
      rw [h3] at hx
      exact absurd hx (by decide)
  · injection he with he1 he2
    rcases hr with hr | ⟨x, t, hr, hx⟩
    · rw [hr] at he2
      exact absurd he2 (by simp)
    · rw [hr] at he2
      injection he2 with he3 _
      subst he3
      have hx' : ¬ (0x80 ≤ x ∧ x ≤ 0xBF) := by
        rw [← isCont_iff, hx]
        exact Bool.false_ne_true
      exfalso
      split_ifs at h3 <;> omega
  · injection he with he1 he2
    rcases hr with hr | ⟨x, t, hr, hx⟩
    · rw [hr] at he2
      exact absurd he2 (by simp)
    · rw [hr] at he2
      injection he2 with he3 _
      subst he3
      have hx' : ¬ (0x80 ≤ x ∧ x ≤ 0xBF) := by
        rw [← isCont_iff, hx]
        exact Bool.false_ne_true
      exfalso
      split_ifs at h3 <;> omega

/-- A rune decoded with width 2 or more is decoded alike whatever follows the string. -/
theorem decode_append_wide (a rest : GoString) (h : 2 ≤ (DecodeRuneInString a).2) :
    DecodeRuneInString (a ++ rest) = DecodeRuneInString a := by
  rcases decode_cases a with ⟨_, h2⟩ | ⟨x, r, _, _, h2⟩ | ⟨x, y, r, rfl, h1, h2, h3, h4⟩ |
    ⟨x, y, z, r, rfl, h1, h2, h3, h4, h5⟩ | ⟨x, y, z, w, r, rfl, h1, h2, h3, h4, h5, h6⟩
  · omega
  · rw [h2] at h
    simp at h
  · rw [h4]
    simp only [List.cons_append]
    rw [decode_two x y _ h1 h2, if_pos h3]
  · rw [h5]
    simp only [List.cons_append]
    rw [decode_three x y z _ h1 h2, if_neg h3, if_neg (by simp [h4])]
  · rw [h6]
    simp only [List.cons_append]
    rw [decode_four x y z w _ h1 h2, if_neg h3, if_neg (by simp [h4]), if_neg (by simp [h5])]

theorem decode_wide_head (a : GoString) (h : 2 ≤ (DecodeRuneInString a).2) :
    ∃ c t, a = c :: t ∧ ¬ c < 0x80 := by
  rcases decode_cases a with ⟨_, h2⟩ | ⟨x, r, _, _, h2⟩ | ⟨x, y, r, rfl, h1, _⟩ |
    ⟨x, y, z, r, rfl, h1, _⟩ | ⟨x, y, z, w, r, rfl, h1, _⟩
  · omega
  · rw [h2] at h
    simp at h
  · exact ⟨_, _, rfl, by omega⟩
  · exact ⟨_, _, rfl, by omega⟩
  · exact ⟨_, _, rfl, by omega⟩
theorem DecodeLastRuneInString_eq2 (s : GoString) :
    DecodeLastRuneInString s =
      if s.length = 0 then (RuneError, 0)
      else if s.getD (s.length - 1) 0 < RuneSelf then (s.getD (s.length - 1) 0, 1)
      else if lastStart s + (DecodeRuneInString (s.drop (lastStart s))).2 ≠ s.length then
        (RuneError, 1)
      else DecodeRuneInString (s.drop (lastStart s)) := by
  rw [DecodeLastRuneInString_eq]
  unfold lastStart
  generalize backScan s (if (s.length : Int) - UTFMax < 0 then 0 else (s.length : Int) - UTFMax)
    UTFMax ((s.length : Int) - 1 - 1) = bs
  by_cases h0 : s.length = 0
  · rw [if_pos h0, if_pos h0]
  rw [if_neg h0, if_neg h0]
  by_cases h1 : s.getD (s.length - 1) 0 < RuneSelf
  · rw [if_pos h1, if_pos h1]
  rw [if_neg h1, if_neg h1]
  by_cases hb : bs < 0
  · simp only [hb, if_true, Int.toNat_zero, zero_add, Int.zero_add, ne_eq, Nat.cast_inj]
  · simp only [hb, if_false]
    have hbs : (bs.toNat : Int) = bs := Int.toNat_of_nonneg (by omega)
    by_cases hc : bs.toNat + (DecodeRuneInString (s.drop bs.toNat)).2 ≠ s.length
    · rw [if_pos hc, if_pos (by omega)]
    · rw [if_neg hc, if_neg (by omega)]

theorem lastStart_lt (s : GoString) (h : s ≠ []) : lastStart s < s.length := by
  have hlen : 0 < s.length := List.length_pos.mpr h
  unfold lastStart
  have hb := backScan_le s (if (s.length : Int) - UTFMax < 0 then 0 else (s.length : Int) - UTFMax)
    UTFMax ((s.length : Int) - 1 - 1)
  generalize backScan s (if (s.length : Int) - UTFMax < 0 then 0 else (s.length : Int) - UTFMax)
    UTFMax ((s.length : Int) - 1 - 1) = bs at hb ⊢
  split_ifs <;> omega

/-- What `DecodeLastRuneInString` returns on a string that is not empty: a
final single-byte rune, a failure of width 1, or the rune decoded at
`lastStart`, which ends where the string ends. -/
theorem decodeLast_cases (v : GoString) (h : v ≠ []) :
    (v.getD (v.length - 1) 0 < RuneSelf ∧
      DecodeLastRuneInString v = (v.getD (v.length - 1) 0, 1)) ∨
    (¬ v.getD (v.length - 1) 0 < RuneSelf ∧ DecodeLastRuneInString v = (RuneError, 1)) ∨
    (¬ v.getD (v.length - 1) 0 < RuneSelf ∧
      lastStart v + (DecodeRuneInString (v.drop (lastStart v))).2 = v.length ∧
      DecodeLastRuneInString v = DecodeRuneInString (v.drop (lastStart v))) := by
  have hlen : v.length ≠ 0 := fun h0 => h (List.length_eq_zero.mp h0)
  rw [DecodeLastRuneInString_eq2, if_neg hlen]
  by_cases h1 : v.getD (v.length - 1) 0 < RuneSelf
  · left
    rw [if_pos h1]
    exact ⟨h1, rfl⟩
  · rw [if_neg h1]
    by_cases hc : lastStart v + (DecodeRuneInString (v.drop (lastStart v))).2 ≠ v.length
    · right; left
      rw [if_pos hc]
      exact ⟨h1, rfl⟩
    · right; right
      rw [if_neg hc]
      exact ⟨h1, not_not.mp hc, rfl⟩

theorem backScan_hit (s : GoString) (lim : Int) (fuel : Nat) (start : Int) (h1 : lim ≤ start)
    (h2 : RuneStart (s.getD start.toNat 0) = true) : backScan s lim (fuel + 1) start = start := by
  unfold backScan
  rw [if_pos h1, if_pos h2]

theorem backScan_miss (s : GoString) (lim : Int) (fuel : Nat) (start : Int) (h1 : lim ≤ start)
    (h2 : RuneStart (s.getD start.toNat 0) = false) :
    backScan s lim (fuel + 1) start = backScan s lim fuel (start - 1) := by
  conv_lhs => unfold backScan
  rw [if_pos h1, if_neg (by rw [h2]; exact Bool.false_ne_true)]

/-- The backward search stops at a byte that starts a rune and is the last but
one of the string. -/
theorem lastStart_two (front : GoString) (l x : Nat) (hl : isCont l = false) :
    lastStart (front ++ [l, x]) = front.length := by
  unfold lastStart UTFMax
  have hlen : ((front ++ [l, x]).length : Int) = (front.length : Int) + 2 := by
    simp
  rw [hlen]
  have e1 : (front.length : Int) + 2 - 1 - 1 = (front.length : Int) := by omega
  rw [e1]
  have hg : (front ++ [l, x]).getD (front.length : Int).toNat 0 = l := by
    rw [Int.toNat_ofNat, List.getD_append_right _ _ _ _ (le_refl _)]
    simp
  rw [backScan_hit _ _ 3 _ (by split_ifs <;> omega) (by rw [hg]; simp [RuneStart, hl])]
  rw [if_neg (by omega), Int.toNat_ofNat]

/-- The backward search passes a continuation byte and stops at a byte that
starts a rune and is the last but two of the string. -/
theorem lastStart_three (front : GoString) (l a b : Nat) (hl : isCont l = false)
    (ha : isCont a = true) : lastStart (front ++ [l, a, b]) = front.length := by
  unfold lastStart UTFMax
  have hlen : ((front ++ [l, a, b]).length : Int) = (front.length : Int) + 3 := by
    simp
  rw [hlen]
  have e1 : (front.length : Int) + 3 - 1 - 1 = ((front.length + 1 : Nat) : Int) := by
    push_cast
    omega
  rw [e1]
  have hg1 : (front ++ [l, a, b]).getD ((front.length + 1 : Nat) : Int).toNat 0 = a := by
    rw [Int.toNat_ofNat, List.getD_append_right _ _ _ _ (by omega)]
    simp
  have hg : (front ++ [l, a, b]).getD (front.length : Int).toNat 0 = l := by
    rw [Int.toNat_ofNat, List.getD_append_right _ _ _ _ (le_refl _)]
    simp
  rw [backScan_miss _ _ 3 _ (by split_ifs <;> omega) (by rw [hg1]; simp [RuneStart, ha])]
  have e2 : ((front.length + 1 : Nat) : Int) - 1 = (front.length : Int) := by
    push_cast
    omega
  rw [e2, backScan_hit _ _ 2 _ (by split_ifs <;> omega) (by rw [hg]; simp [RuneStart, hl])]
  rw [if_neg (by omega), Int.toNat_ofNat]
theorem getD_last_append (front tail : GoString) (h : tail ≠ []) :
    (front ++ tail).getD ((front ++ tail).length - 1) 0 = tail.getD (tail.length - 1) 0 := by
  have hlen : 0 < tail.length := List.length_pos.mpr h
  rw [List.length_append, List.getD_append_right _ _ _ _ (by omega)]
  congr 1
  omega

/-- The last rune of a string that ends with a well-formed multi-byte rune at
which the backward search stops. -/
theorem decodeLast_at (front tail : GoString) (h : tail ≠ [])
    (hlast : ¬ tail.getD (tail.length - 1) 0 < RuneSelf)
    (hstart : lastStart (front ++ tail) = front.length)
    (hw : (DecodeRuneInString tail).2 = tail.length) :
    DecodeLastRuneInString (front ++ tail) = DecodeRuneInString tail := by
  have hlen : 0 < tail.length := List.length_pos.mpr h
  rw [DecodeLastRuneInString_eq2, getD_last_append front tail h, hstart,
    List.drop_left, if_neg (by rw [List.length_append]; omega), if_neg hlast,
    if_neg (by rw [List.length_append, hw]; exact not_not.mpr rfl)]

/-- The last rune of a string that ends with the encoding of a white-space
character is that character. -/
theorem decodeLast_encode_space {r : Nat} (h : IsSpace r = true) (front : GoString) :
    DecodeLastRuneInString (front ++ EncodeRune r) = (r, (EncodeRune r).length) := by
  have two : ∀ l x : Nat, isCont l = false → ¬ x < RuneSelf →
      (DecodeRuneInString [l, x]).2 = 2 →
      DecodeLastRuneInString (front ++ [l, x]) = DecodeRuneInString [l, x] := by
    intro l x hl hx hw
    exact decodeLast_at front [l, x] (by simp) hx (lastStart_two front l x hl) hw
  have three : ∀ l a b : Nat, isCont l = false → isCont a = true → ¬ b < RuneSelf →
      (DecodeRuneInString [l, a, b]).2 = 3 →
      DecodeLastRuneInString (front ++ [l, a, b]) = DecodeRuneInString [l, a, b] := by
    intro l a b hl ha hb hw
    exact decodeLast_at front [l, a, b] (by simp) hb (lastStart_three front l a b hl ha) hw
  rcases IsSpace_cases h with h | h | h | h | h | h | h | h | h | h | h | h | h | h | h | h | h |
    h | h | h | h | h | h | h | h <;> subst h
  iterate 6 exact decodeLast_append front _ (by decide)
  iterate 2 exact two _ _ (by decide) (by decide) (by decide)
  all_goals exact three _ _ _ (by decide) (by decide) (by decide) (by decide)

theorem getD_last_eq_getLast (v : GoString) (h : v ≠ []) :
    v.getD (v.length - 1) 0 = v.getLast h := by
  have hlen : 0 < v.length := List.length_pos.mpr h
  rw [List.getLast_eq_getElem, List.getD_eq_getElem _ _ (by omega)]

/-- A white-space character decoded at the end of a string stands there as its
encoding. -/
theorem decodeLast_space (v : GoString) (h : IsSpace (DecodeLastRuneInString v).1 = true) :
    v = v.take (v.length - (DecodeLastRuneInString v).2) ++
      EncodeRune (DecodeLastRuneInString v).1 := by
  by_cases hv : v = []
  · subst hv
    exact absurd h (by decide)
  rcases decodeLast_cases v hv with ⟨h1, h2⟩ | ⟨_, h2⟩ | ⟨_, h2, h3⟩
  · rw [h2, encode_ascii _ h1]
    have hd := (List.dropLast_append_getLast hv).symm
    rw [List.dropLast_eq_take, ← getD_last_eq_getLast v hv] at hd
    exact hd
  · rw [h2] at h
    exact absurd h (by decide)
  · rw [h3] at h ⊢
    have hs := decode_space _ h
    have hk : v.length - (DecodeRuneInString (v.drop (lastStart v))).2 = lastStart v := by omega
    rw [List.drop_drop, h2, List.drop_length, List.append_nil] at hs
    rw [hk, ← hs, List.take_append_drop]

/-- Where `TrimRightFunc` cuts: after the last rune of `v`, when what follows
`v` is empty or begins with a byte that starts a rune. -/
theorem end_recover (v rest : GoString) (hv : v ≠ [])
    (hr : rest = [] ∨ ∃ c t, rest = c :: t ∧ isCont c = false) :
    (if RuneSelf ≤ (v ++ rest).getD (v.length - (DecodeLastRuneInString v).2) 0 then
        v.length - (DecodeLastRuneInString v).2 +
          (DecodeRuneInString ((v ++ rest).drop (v.length - (DecodeLastRuneInString v).2))).2
      else v.length - (DecodeLastRuneInString v).2 + 1) = v.length := by
  have hlen : 0 < v.length := List.length_pos.mpr hv
  have one : (DecodeLastRuneInString v).2 = 1 →
      (if RuneSelf ≤ (v ++ rest).getD (v.length - (DecodeLastRuneInString v).2) 0 then
        v.length - (DecodeLastRuneInString v).2 +
          (DecodeRuneInString ((v ++ rest).drop (v.length - (DecodeLastRuneInString v).2))).2
      else v.length - (DecodeLastRuneInString v).2 + 1) = v.length := by
    intro h1
    rw [h1]
    split_ifs with hb
    · have hd : (v ++ rest).drop (v.length - 1) = v.getD (v.length - 1) 0 :: rest := by
        have hlt : v.length - 1 < v.length := by omega
        rw [List.drop_append_of_le_length (by omega), List.drop_eq_getElem_cons hlt,
          List.getD_eq_getElem _ _ hlt]
        have e : v.length - 1 + 1 = v.length := by omega
        rw [e, List.drop_length]
        rfl
      rw [List.getD_append _ _ _ _ (by omega)] at hb
      rw [hd, decode_width_one _ rest (by unfold RuneSelf at hb; omega) hr]
      omega
    · omega
  rcases decodeLast_cases v hv with ⟨_, h2⟩ | ⟨_, h2⟩ | ⟨_, h2, h3⟩
  · exact one (by rw [h2])
  · exact one (by rw [h2])
  · by_cases hw : (DecodeLastRuneInString v).2 = 1
    · exact one hw
    · have hpos := decodeLast_width_pos v hv
      rw [h3] at hw hpos ⊢
      have hk : v.length - (DecodeRuneInString (v.drop (lastStart v))).2 = lastStart v := by omega
      have hlt := lastStart_lt v hv
      rw [hk, List.drop_append_of_le_length (le_of_lt hlt),
        decode_append_wide _ rest (by omega)]
      obtain ⟨c, t, hc1, hc2⟩ := decode_wide_head (v.drop (lastStart v)) (by omega)
      have hg : (v ++ rest).getD (lastStart v) 0 = c := by
        rw [List.getD_append _ _ _ _ hlt, List.getD_eq_getElem _ _ hlt]
        have := List.drop_eq_getElem_cons hlt
        rw [hc1] at this
        injection this with this _
        exact this.symm
      rw [hg, if_pos (by unfold RuneSelf; omega)]
      exact h2
theorem runeAt_eq_decode (s : GoString) (start : Nat) (h : start < s.length) :
    runeAt s start = DecodeRuneInString (s.drop start) := by
  unfold runeAt
  split_ifs with hb
  · rfl
  · rw [List.drop_eq_getElem_cons h, ← List.getD_eq_getElem _ 0 h,
      decode_ascii _ _ (by unfold RuneSelf at hb; omega)]

theorem EncodeRune_ne_nil (r : Nat) : EncodeRune r ≠ [] := by
  unfold EncodeRune
  split_ifs <;> simp

theorem not_StartsWithSpace_nil : ¬ StartsWithSpace [] := by
  rintro ⟨r, rest, _, h⟩
  have := congrArg List.length h
  have hne := List.length_pos.mpr (EncodeRune_ne_nil r)
  rw [List.length_append, List.length_nil] at this
  omega

theorem not_EndsWithSpace_nil : ¬ EndsWithSpace [] := by
  rintro ⟨r, front, _, h⟩
  have := congrArg List.length h
  have hne := List.length_pos.mpr (EncodeRune_ne_nil r)
  rw [List.length_append, List.length_nil] at this
  omega

/-- What the forward loop of `TrimLeftFunc` finds: nothing, in a string that is
white space, or the first offset after white space at which no white-space
character begins. -/
theorem indexFuncLoop_spec (s : GoString) :
    ∀ fuel start, start ≤ s.length → s.length - start ≤ fuel → WhiteSpace (s.take start) →
      (indexFuncLoop s IsSpace false fuel start = -1 ∧ WhiteSpace s) ∨
      (∃ i : Nat, indexFuncLoop s IsSpace false fuel start = (i : Int) ∧ i < s.length ∧
        WhiteSpace (s.take i) ∧ ¬ StartsWithSpace (s.drop i)) := by
  intro fuel
  induction fuel with
  | zero =>
    intro start h1 h2 hws
    have : start = s.length := by omega
    subst this
    rw [List.take_length] at hws
    exact Or.inl ⟨rfl, hws⟩
  | succ n ih =>
    intro start h1 h2 hws
    rw [indexFuncLoop_succ]
    by_cases hlt : start < s.length
    · rw [if_pos hlt]
      have hra := runeAt_eq_decode s start hlt
      by_cases hsp : IsSpace (runeAt s start).1 = true
      · rw [if_neg (by rw [hsp]; decide)]
        have hw := runeAt_width s start hlt
        rw [hra] at hsp hw ⊢
        have hs := decode_space _ hsp
        have hlen : (DecodeRuneInString (s.drop start)).2 =
            (EncodeRune (DecodeRuneInString (s.drop start)).1).length := by
          have := decode_encode_space hsp
            ((s.drop start).drop (DecodeRuneInString (s.drop start)).2)
          rw [← hs] at this
          exact congrArg Prod.snd this
        apply ih _ hw.2 (by omega)
        rw [List.take_add]
        apply WhiteSpace_append hws
        have ht : (s.drop start).take (DecodeRuneInString (s.drop start)).2 =
            EncodeRune (DecodeRuneInString (s.drop start)).1 := by
          have := congrArg
            (List.take (EncodeRune (DecodeRuneInString (s.drop start)).1).length) hs
          rw [List.take_left] at this
          rw [hlen]
          exact this
        rw [ht]
        exact WhiteSpace_single hsp
      · rw [if_pos (by simpa using hsp)]
        right
        refine ⟨start, rfl, hlt, hws, ?_⟩
        rintro ⟨r, rest, hr, he⟩
        apply hsp
        rw [hra, he, decode_encode_space (IsSpace_iff_mem.mpr hr)]
        exact IsSpace_iff_mem.mpr hr
    · rw [if_neg hlt]
      have : start = s.length := by omega
      subst this
      rw [List.take_length] at hws
      exact Or.inl ⟨rfl, hws⟩

/-- Function `TrimLeftFunc` with `IsSpace` removes white space, and what it
returns does not begin with a white-space character. -/
theorem TrimLeftFunc_spec (s : GoString) :
    ∃ pre, s = pre ++ TrimLeftFunc s IsSpace ∧ WhiteSpace pre ∧
      ¬ StartsWithSpace (TrimLeftFunc s IsSpace) := by
  unfold TrimLeftFunc indexFunc
  rcases indexFuncLoop_spec s s.length 0 (Nat.zero_le _) (by omega) WhiteSpace.nil with
    ⟨h1, h2⟩ | ⟨i, h1, _, h3, h4⟩
  · rw [h1]
    exact ⟨s, by simp, h2, not_StartsWithSpace_nil⟩
  · rw [h1]
    have hne : ¬ ((i : Int) = -1) := by omega
    simp only [hne, if_false, Int.toNat_ofNat]
    exact ⟨s.take i, (List.take_append_drop i s).symm, h3, h4⟩

/-- What the backward loop of `TrimRightFunc` finds: nothing, in a string that
is white space, or the start of the last rune of the longest prefix that is
followed by white space only and does not end with a white-space character. -/
theorem lastIndexFuncLoop_spec (u : GoString) :
    ∀ fuel i, i ≤ u.length → i ≤ fuel → WhiteSpace (u.drop i) →
      (lastIndexFuncLoop u IsSpace false fuel i = -1 ∧ WhiteSpace u) ∨
      (∃ k, 0 < k ∧ k ≤ u.length ∧ WhiteSpace (u.drop k) ∧ ¬ EndsWithSpace (u.take k) ∧
        lastIndexFuncLoop u IsSpace false fuel i =
          ((k - (DecodeLastRuneInString (u.take k)).2 : Nat) : Int)) := by
  intro fuel
  induction fuel with
  | zero =>
    intro i _ h2 hws
    have : i = 0 := by omega
    subst this
    exact Or.inl ⟨rfl, hws⟩
  | succ n ih =>
    intro i h1 h2 hws
    rw [lastIndexFuncLoop_succ]
    by_cases h0 : 0 < i
    · rw [if_pos h0]
      have hlen : (u.take i).length = i := by rw [List.length_take]; omega
      have hne : u.take i ≠ [] := by
        intro h
        rw [h] at hlen
        simp at hlen
        omega
      by_cases hsp : IsSpace (DecodeLastRuneInString (u.take i)).1 = true
      · rw [if_neg (by rw [hsp]; decide)]
        have hw := decodeLast_width_pos _ hne
        have hs := decodeLast_space _ hsp
        rw [hlen, List.take_take, Nat.min_eq_left (Nat.sub_le _ _)] at hs
        apply ih _ (by omega) (by omega)
        have hd : u.drop (i - (DecodeLastRuneInString (u.take i)).2) =
            EncodeRune (DecodeLastRuneInString (u.take i)).1 ++ u.drop i := by
          have e1 : (u.take i).drop (i - (DecodeLastRuneInString (u.take i)).2) =
              EncodeRune (DecodeLastRuneInString (u.take i)).1 := by
            have := congrArg (List.drop (i - (DecodeLastRuneInString (u.take i)).2)) hs
            rw [List.drop_left' (by rw [List.length_take]; omega)] at this
            exact this
          have e2 := @List.drop_append_of_le_length _ (u.take i) (u.drop i)
            (i - (DecodeLastRuneInString (u.take i)).2) (by rw [hlen]; omega)
          rw [List.take_append_drop, e1] at e2
          exact e2
        rw [hd]
        exact WhiteSpace.cons _ _ (IsSpace_iff_mem.mp hsp) hws
      · rw [if_pos (by simpa using hsp)]
        right
        refine ⟨i, h0, h1, hws, ?_, rfl⟩
        rintro ⟨r, front, hr, he⟩
        apply hsp
        rw [he, decodeLast_encode_space (IsSpace_iff_mem.mpr hr)]
        exact IsSpace_iff_mem.mpr hr
    · rw [if_neg h0]
      have : i = 0 := by omega
      subst this
      exact Or.inl ⟨rfl, hws⟩

/-- Function `TrimRightFunc` with `IsSpace` removes white space, and what it
returns does not end with a white-space character. -/
theorem TrimRightFunc_spec (u : GoString) :
    ∃ suf, u = TrimRightFunc u IsSpace ++ suf ∧ WhiteSpace suf ∧
      ¬ EndsWithSpace (TrimRightFunc u IsSpace) := by
  unfold TrimRightFunc lastIndexFunc
  rcases lastIndexFuncLoop_spec u u.length u.length (le_refl _) (le_refl _)
    (by rw [List.drop_length]; exact WhiteSpace.nil) with ⟨h1, h2⟩ | ⟨k, k0, k1, h3, h4, h5⟩
  · rw [h1]
    simp only [show ¬ ((0 : Int) ≤ -1) by omega, false_and, if_false]
    exact ⟨u, by simp, h2, not_EndsWithSpace_nil⟩
  · rw [h5]
    have hlen : (u.take k).length = k := by rw [List.length_take]; omega
    have hne : u.take k ≠ [] := by
      intro h
      rw [h] at hlen
      simp at hlen
      omega
    have hrec := end_recover (u.take k) (u.drop k) hne (WhiteSpace_head h3)
    rw [hlen, List.take_append_drop] at hrec
    simp only [Int.toNat_ofNat, Int.natCast_nonneg, true_and]
    have hcut : (if RuneSelf ≤ u.getD (k - (DecodeLastRuneInString (u.take k)).2) 0 then
          ((k - (DecodeLastRuneInString (u.take k)).2 : Nat) : Int) +
            ((DecodeRuneInString
              (u.drop (k - (DecodeLastRuneInString (u.take k)).2))).2 : Int)
        else ((k - (DecodeLastRuneInString (u.take k)).2 : Nat) : Int) + 1).toNat = k := by
      split_ifs at hrec ⊢ <;> omega
    rw [hcut]
    exact ⟨u.drop k, (List.take_append_drop k u).symm, h3, h4⟩

/-- Function `strings.TrimSpace` meets its description: the string it returns
is the argument with all leading and trailing white space removed. -/
theorem TrimSpace_trimmed (s : GoString) : Trimmed s (TrimSpace s) := by
  unfold TrimSpace TrimFunc
  obtain ⟨pre, h1, h2, h3⟩ := TrimLeftFunc_spec s
  obtain ⟨suf, h4, h5, h6⟩ := TrimRightFunc_spec (TrimLeftFunc s IsSpace)
  refine ⟨pre, suf, ?_, h2, h5, ?_, h6⟩
  · rw [List.append_assoc, ← h4]
    exact h1
  · rintro ⟨r, rest, hr, he⟩
    apply h3
    refine ⟨r, rest ++ suf, hr, ?_⟩
    rw [← List.append_assoc, ← he]
    exact h4

theorem indexFuncLoop_whiteSpace (s : GoString) :
    ∀ fuel start, WhiteSpace (s.drop start) →
      indexFuncLoop s IsSpace false fuel start = -1 := by
  intro fuel
  induction fuel with
  | zero => intro start _; rfl
  | succ n ih =>
    intro start hws
    rw [indexFuncLoop_succ]
    by_cases hlt : start < s.length
    · rw [if_pos hlt, runeAt_eq_decode s start hlt]
      generalize hx : s.drop start = x at hws
      cases hws with
      | nil =>
        have := congrArg List.length hx
        rw [List.length_drop, List.length_nil] at this
        omega
      | cons r rest hr hrest =>
        have hr' := IsSpace_iff_mem.mpr hr
        rw [decode_encode_space hr']
        rw [if_neg (by simp [hr'])]
        apply ih
        have : s.drop (start + (EncodeRune r).length) = rest := by
          rw [← List.drop_drop, hx, List.drop_left]
        rw [this]
        exact hrest
    · rw [if_neg hlt]

/-- White space is trimmed to the empty string. -/
theorem TrimSpace_of_whiteSpace (s : GoString) (h : WhiteSpace s) : TrimSpace s = [] := by
  have hi : indexFunc s IsSpace false = -1 := indexFuncLoop_whiteSpace s s.length 0 h
  unfold TrimSpace TrimFunc TrimLeftFunc
  simp only [hi, if_true]
  rfl

/-! ## The trimmed form is unique -/

theorem encode_space_tail {r : Nat} (h : r ∈ whiteSpaceChars) :
    ∃ c t, EncodeRune r = c :: t ∧ isCont c = false ∧ ∀ x ∈ t, isCont x = true := by
  simp only [whiteSpaceChars, List.mem_cons, List.mem_singleton, List.not_mem_nil,
    or_false] at h
  rcases h with h | h | h | h | h | h | h | h | h | h | h | h | h | h | h | h | h |
    h | h | h | h | h | h | h | h <;> subst h <;>
    exact ⟨_, _, rfl, by decide, by decide⟩

/-- Continuation bytes that begin `a ++ b` lie within `a` when `b` is empty or
begins with a byte that starts a rune. -/
theorem cont_within (t : GoString) (ht : ∀ x ∈ t, isCont x = true) :
    ∀ (a b rest : GoString), a ++ b = t ++ rest →
      (b = [] ∨ ∃ c u, b = c :: u ∧ isCont c = false) → ∃ a', a = t ++ a' := by
  induction t with
  | nil => intro a _ _ _ _; exact ⟨a, rfl⟩
  | cons x t ih =>
    intro a b rest h hb
    rcases a with _ | ⟨y, a⟩
    · rcases hb with hb | ⟨c, u, hb, hc⟩
      · subst hb
        exact absurd h (by simp)
      · subst hb
        rw [List.nil_append, List.cons_append] at h
        injection h with h1 _
        subst h1
        rw [ht c (List.mem_cons_self _ _)] at hc
        exact absurd hc (by decide)
    · rw [List.cons_append, List.cons_append] at h
      injection h with h1 h2
      subst h1
      obtain ⟨a', ha'⟩ := ih (fun z hz => ht z (List.mem_cons_of_mem _ hz)) a b rest h2 hb
      exact ⟨a', by rw [ha']; rfl⟩

/-- A string that is not empty and, followed by white space, begins with a
white-space character, begins with it itself. -/
theorem starts_of_append {x b rest : GoString} {r : Nat} (hx : x ≠ [])
    (hb : b = [] ∨ ∃ c u, b = c :: u ∧ isCont c = false) (hr : r ∈ whiteSpaceChars)
    (h : x ++ b = EncodeRune r ++ rest) : ∃ x', x = EncodeRune r ++ x' := by
  obtain ⟨c, t, he, _, ht⟩ := encode_space_tail hr
  rw [he] at h ⊢
  rcases x with _ | ⟨y, x⟩
  · exact absurd rfl hx
  · rw [List.cons_append, List.cons_append] at h
    injection h with h1 h2
    subst h1
    obtain ⟨a', ha'⟩ := cont_within t ht x b rest h2 hb
    exact ⟨a', by rw [ha']; rfl⟩

/-- Two white-space prefixes of one string: one is the other followed by
white space. -/
theorem WhiteSpace_prefixes {a : GoString} (ha : WhiteSpace a) :
    ∀ {b x y : GoString}, WhiteSpace b → a ++ x = b ++ y →
      ∃ c, WhiteSpace c ∧ (b = a ++ c ∨ a = b ++ c) := by
  induction ha with
  | nil =>
    intro b x y hb _
    exact ⟨b, hb, Or.inl rfl⟩
  | cons r a' hr ha' ih =>
    intro b x y hb h
    cases hb with
    | nil => exact ⟨_, WhiteSpace.cons r a' hr ha', Or.inr rfl⟩
    | cons r2 b' hr2 hb' =>
      rw [List.append_assoc, List.append_assoc] at h
      have h1 := decode_encode_space (IsSpace_iff_mem.mpr hr) (a' ++ x)
      have h2 := decode_encode_space (IsSpace_iff_mem.mpr hr2) (b' ++ y)
      rw [h, h2] at h1
      have hrr : r2 = r := congrArg Prod.fst h1
      subst hrr
      have h3 := List.append_cancel_left h
      obtain ⟨c, hc, hcc⟩ := ih hb' h3
      refine ⟨c, hc, ?_⟩
      rcases hcc with hcc | hcc
      · left; rw [hcc, List.append_assoc]
      · right; rw [hcc, List.append_assoc]

theorem WhiteSpace_of_append_left {a b : GoString} (hab : WhiteSpace (a ++ b))
    (ha : WhiteSpace a) : WhiteSpace b := by
  obtain ⟨c, hc, hcc⟩ := WhiteSpace_prefixes hab (x := []) (y := b) ha (by simp)
  rcases hcc with hcc | hcc
  · have := congrArg List.length hcc
    simp only [List.length_append] at this
    have hb : b = [] := List.length_eq_zero.mp (by omega)
    rw [hb]
    exact WhiteSpace.nil
  · have := List.append_cancel_left hcc
    rw [this]
    exact hc

theorem WhiteSpace_snoc {d : GoString} (hd : WhiteSpace d) (hne : d ≠ []) :
    ∃ front r, r ∈ whiteSpaceChars ∧ d = front ++ EncodeRune r := by
  induction hd with
  | nil => exact absurd rfl hne
  | cons r rest hr _ ih =>
    by_cases h : rest = []
    · subst h
      exact ⟨[], r, hr, by simp⟩
    · obtain ⟨front, r', hr', he⟩ := ih h
      exact ⟨EncodeRune r ++ front, r', hr', by rw [he, List.append_assoc]⟩

theorem WhiteSpace_of_append_right :
    ∀ {z : GoString}, WhiteSpace z → ∀ {d q : GoString}, z = d ++ q → WhiteSpace q →
      WhiteSpace d := by
  intro z hz
  induction hz with
  | nil =>
    intro d q h _
    have : d = [] := (List.append_eq_nil.mp h.symm).1
    rw [this]
    exact WhiteSpace.nil
  | cons r z' hr _ ih =>
    intro d q h hq
    by_cases hd : d = []
    · rw [hd]
      exact WhiteSpace.nil
    · obtain ⟨d', hd'⟩ := starts_of_append hd (WhiteSpace_head hq) hr h.symm
      rw [hd', List.append_assoc] at h
      have h2 := List.append_cancel_left h
      rw [hd']
      exact WhiteSpace.cons r d' hr (ih h2 hq)

/-- First half of uniqueness: with the white space before `t'` at least as
long as that before `t`. -/
theorem trimmed_unique_left {t q c t' q' : GoString} (hq : WhiteSpace q) (hc : WhiteSpace c)
    (hq' : WhiteSpace q') (ht : ¬ StartsWithSpace t) (ht' : ¬ StartsWithSpace t')
    (h : t ++ q = c ++ (t' ++ q')) :
    c = [] ∨ (t = [] ∧ t' = []) := by
  by_cases hcn : c = []
  · exact Or.inl hcn
  right
  cases hc with
  | nil => exact absurd rfl hcn
  | cons r c' hr hc' =>
    have ht0 : t = [] := by
      by_contra htn
      rw [List.append_assoc] at h
      obtain ⟨x', hx'⟩ := starts_of_append htn (WhiteSpace_head hq) hr h
      exact ht ⟨r, x', hr, hx'⟩
    refine ⟨ht0, ?_⟩
    subst ht0
    rw [List.nil_append] at h
    rw [h] at hq
    have hws : WhiteSpace (t' ++ q') :=
      WhiteSpace_of_append_left hq (WhiteSpace.cons r c' hr hc')
    by_contra htn
    generalize hz : t' ++ q' = z at hws
    cases hws with
    | nil =>
      exact htn (List.append_eq_nil.mp hz).1
    | cons r2 z' hr2 _ =>
      obtain ⟨x', hx'⟩ := starts_of_append htn (WhiteSpace_head hq') hr2 hz
      exact ht' ⟨r2, x', hr2, hx'⟩

/-- Second half of uniqueness: the two results followed by their white space
are the same string. -/
theorem trimmed_unique_right {t q t' q' : GoString} (hq : WhiteSpace q) (hq' : WhiteSpace q')
    (ht : ¬ EndsWithSpace t) (ht' : ¬ EndsWithSpace t') (h : t ++ q = t' ++ q') : t = t' := by
  have key : ∀ {t q t' q' : GoString}, WhiteSpace q → WhiteSpace q' → ¬ EndsWithSpace t' →
      t ++ q = t' ++ q' → q'.length ≤ q.length → t = t' := by
    intro t q t' q' hq hq' ht' h hlen
    have hd : ∃ d, q = d ++ q' := by
      rcases List.append_eq_append_iff.mp h with ⟨a', _, h2⟩ | ⟨c', _, h2⟩
      · exact ⟨a', h2⟩
      · have := congrArg List.length h2
        rw [List.length_append] at this
        have hc : c' = [] := List.length_eq_zero.mp (by omega)
        rw [hc, List.nil_append] at h2
        exact ⟨[], by rw [h2]; rfl⟩
    obtain ⟨d, hd⟩ := hd
    have hwd : WhiteSpace d := WhiteSpace_of_append_right hq hd hq'
    rw [hd, ← List.append_assoc] at h
    have h3 := List.append_cancel_right h
    by_cases hdn : d = []
    · rw [hdn, List.append_nil] at h3
      exact h3
    · obtain ⟨front, r, hr, he⟩ := WhiteSpace_snoc hwd hdn
      exfalso
      apply ht'
      exact ⟨r, t ++ front, hr, by rw [← h3, he, List.append_assoc]⟩
  by_cases hlen : q'.length ≤ q.length
  · exact key hq hq' ht' h hlen
  · exact (key hq' hq ht h.symm (by omega)).symm

/-- The description pins the result: a string has one trimmed form only. -/
theorem Trimmed_unique {s t t' : GoString} (h : Trimmed s t) (h' : Trimmed s t') : t = t' := by
  obtain ⟨p, q, hs, hp, hq, h1, h2⟩ := h
  obtain ⟨p', q', hs', hp', hq', h1', h2'⟩ := h'
  rw [List.append_assoc] at hs hs'
  have heq : p ++ (t ++ q) = p' ++ (t' ++ q') := by rw [← hs, ← hs']
  obtain ⟨c, hc, hcc⟩ := WhiteSpace_prefixes hp hp' heq
  rcases hcc with hcc | hcc
  · rw [hcc, List.append_assoc] at heq
    have h3 := List.append_cancel_left heq
    rcases trimmed_unique_left hq hc hq' h1 h1' h3 with hc0 | ⟨e1, e2⟩
    · rw [hc0, List.nil_append] at h3
      exact trimmed_unique_right hq hq' h2 h2' h3
    · rw [e1, e2]
  · rw [hcc, List.append_assoc] at heq
    have h3 := List.append_cancel_left heq
    rcases trimmed_unique_left hq' hc hq h1' h1 h3.symm with hc0 | ⟨e1, e2⟩
    · rw [hc0, List.nil_append] at h3
      exact trimmed_unique_right hq hq' h2 h2' h3
    · rw [e1, e2]

/-- Function `strings.TrimSpace` is the function its description names. -/
theorem TrimSpace_eq_of_trimmed {s t : GoString} (h : Trimmed s t) : TrimSpace s = t :=
  Trimmed_unique (TrimSpace_trimmed s) h

/-! ## The first `Scan` -/

theorem firstLine_append_of_mem (a b : GoString) (h : 10 ∈ a) :
    firstLine (a ++ b) = firstLine a := by
  unfold firstLine
  induction a with
  | nil => simp at h
  | cons x a ih =>
    by_cases hx : x = 10
    · subst hx
      simp [List.takeWhile]
    · have hm : 10 ∈ a := by
        rcases List.mem_cons.mp h with h | h
        · exact absurd h.symm hx
        · exact h
      simp only [List.cons_append, List.takeWhile_cons, bne_iff_ne, ne_eq, hx, not_false_eq_true,
        if_true, ih hm]

theorem firstLine_of_not_mem (a : GoString) (h : 10 ∉ a) : firstLine a = a := by
  unfold firstLine
  rw [List.takeWhile_eq_self_iff]
  intro x hx
  simp only [bne_iff_ne, ne_eq]
  rintro rfl
  exact h hx

theorem take_indexOf_eq_firstLine (a : GoString) : a.take (a.indexOf 10) = firstLine a := by
  unfold firstLine
  induction a with
  | nil => rfl
  | cons x a ih =>
    by_cases hx : x = 10
    · subst hx
      simp [List.indexOf_cons]
    · have hx' : ¬ (x == 10) = true := by simpa using hx
      simp only [List.indexOf_cons, hx', cond_false, List.take_succ_cons, ih,
        List.takeWhile_cons, bne_iff_ne, ne_eq, hx, not_false_eq_true, if_true]

/-- The token `ScanLines` returns: the first line without its terminal carriage
return when the data hold a newline, the data without theirs at the end of the
input, and none otherwise. -/
theorem ScanLines_token (data : GoString) (atEOF : Bool) :
    (ScanLines data atEOF).2 =
      if 10 ∈ data then some (dropCR (firstLine data))
      else if atEOF = true ∧ data ≠ [] then some (dropCR (firstLine data))
      else none := by
  unfold ScanLines
  by_cases hm : 10 ∈ data
  · have hlt : data.indexOf 10 < data.length := List.indexOf_lt_length.mpr hm
    have hne : ¬ (atEOF = true ∧ data.length = 0) := by
      rintro ⟨_, h0⟩
      omega
    rw [if_neg hne, if_pos hm]
    simp only [hlt, if_true, take_indexOf_eq_firstLine]
  · have hge : ¬ data.indexOf 10 < data.length := fun h => hm (List.indexOf_lt_length.mp h)
    rw [if_neg hm]
    by_cases h0 : atEOF = true ∧ data.length = 0
    · rw [if_pos h0, if_neg (by rintro ⟨_, h⟩; exact h (List.length_eq_zero.mp h0.2))]
    · rw [if_neg h0]
      simp only [hge, if_false]
      by_cases he : atEOF = true
      · have hd : data ≠ [] := fun h => h0 ⟨he, by simp [h]⟩
        rw [if_pos he, if_pos ⟨he, hd⟩, firstLine_of_not_mem data hm]
      · rw [if_neg he, if_neg (fun h => he h.1)]

/-- One iteration of `Scan`. -/
theorem scanLoop_succ (fuel : Nat) (s : Scanner) :
    scanLoop (fuel + 1) s =
      match s.split.2 with
      | some token => some { s with held := s.held.drop s.split.1, tok := some token }
      | none =>
        if s.noToken.err ≠ none then some { s.noToken with held := [] }
        else if s.noToken.held.length = s.noToken.buf ∧
            s.noToken.maxTokenSize ≤ s.noToken.buf then
          some { s.noToken with err := some GoError.ErrTooLong }
        else scanLoop fuel s.noToken.afterRead := rfl

theorem noToken_eq (s : Scanner) (ht : s.tok = none) : s.noToken = s := by
  unfold Scanner.noToken
  split_ifs
  · cases s
    simp only [] at ht
    subst ht
    rfl
  · rfl

theorem noToken_err (s : Scanner) : s.noToken.err = s.err := by
  unfold Scanner.noToken
  split_ifs <;> rfl

theorem noToken_tok (s : Scanner) (he : s.err ≠ none) : s.noToken.tok = none := by
  unfold Scanner.noToken
  rw [if_pos (by simp [he])]

theorem split_of_mem (s : Scanner) (hm : 10 ∈ s.held) :
    s.split.2 = some (dropCR (firstLine s.held)) := by
  have hpos : 0 < s.held.length := List.length_pos_of_mem hm
  unfold Scanner.split
  rw [if_pos (by simp [hpos]), ScanLines_token, if_pos hm]

theorem split_of_not_mem (s : Scanner) (he : s.err = none) (hm : 10 ∉ s.held) :
    s.split.2 = none := by
  unfold Scanner.split
  split_ifs
  · rw [ScanLines_token, if_neg hm, if_neg]
    rintro ⟨h, _⟩
    simp [he] at h
  · rfl

theorem split_ended (s : Scanner) (he : s.err ≠ none) :
    s.split.2 = if s.held = [] then none else some (dropCR (firstLine s.held)) := by
  unfold Scanner.split
  rw [if_pos (by simp [he]), ScanLines_token]
  by_cases hd : s.held = []
  · rw [if_pos hd, if_neg (by rw [hd]; exact List.not_mem_nil _), if_neg (fun h => h.2 hd)]
  · rw [if_neg hd]
    by_cases h10 : 10 ∈ s.held
    · rw [if_pos h10]
    · rw [if_neg h10, if_pos ⟨by simp [he], hd⟩]

theorem scanLoop_token (fuel : Nat) (s : Scanner) (hm : 10 ∈ s.held) :
    scanLoop (fuel + 1) s =
      some { s with held := s.held.drop s.split.1, tok := some (dropCR (firstLine s.held)) } := by
  rw [scanLoop_succ]
  simp only [split_of_mem s hm]

theorem scanLoop_ended (fuel : Nat) (s : Scanner) (x : GoError) (he : s.err = some x) :
    ∃ s', scanLoop (fuel + 1) s = some s' ∧ s'.err = some x ∧
      s'.Text = dropCR (firstLine s.held) := by
  have hne : s.err ≠ none := by rw [he]; exact Option.some_ne_none x
  have hsp := split_ended s hne
  rw [scanLoop_succ]
  by_cases hd : s.held = []
  · rw [if_pos hd] at hsp
    simp only [hsp]
    rw [if_pos (by rw [noToken_err]; exact hne)]
    refine ⟨_, rfl, by simp only [noToken_err, he], ?_⟩
    simp only [Scanner.Text, noToken_tok s hne, hd]
    rfl
  · rw [if_neg hd] at hsp
    simp only [hsp]
    exact ⟨_, rfl, he, rfl⟩

theorem scanLoop_full (fuel : Nat) (s : Scanner) (he : s.err = none) (ht : s.tok = none)
    (hm : 10 ∉ s.held) (hf : s.held.length = s.buf ∧ s.maxTokenSize ≤ s.buf) :
    scanLoop (fuel + 1) s = some { s with err := some GoError.ErrTooLong } := by
  rw [scanLoop_succ]
  simp only [split_of_not_mem s he hm, noToken_eq s ht]
  rw [if_neg (by simp [he]), if_pos hf]

theorem scanLoop_read (fuel : Nat) (s : Scanner) (he : s.err = none) (ht : s.tok = none)
    (hm : 10 ∉ s.held) (hf : ¬ (s.held.length = s.buf ∧ s.maxTokenSize ≤ s.buf)) :
    scanLoop (fuel + 1) s = scanLoop fuel s.afterRead := by
  rw [scanLoop_succ]
  simp only [split_of_not_mem s he hm, noToken_eq s ht]
  rw [if_neg (by simp [he]), if_neg hf]

/-- A buffer that is not both full and of maximal size has room after growing. -/
theorem newSize_room (s : Scanner) (hb : s.held.length ≤ s.buf)
    (hf : ¬ (s.held.length = s.buf ∧ s.maxTokenSize ≤ s.buf)) : s.held.length < s.newSize := by
  unfold Scanner.newSize
  by_cases h : s.held.length = s.buf
  · rw [if_pos h]
    have hM : s.buf < s.maxTokenSize := by
      by_contra hc
      exact hf ⟨h, by omega⟩
    unfold startBufSize
    split_ifs <;> omega
  · rw [if_neg h]
    omega

/-- The read of an iteration at the end of the input: no byte, the terminal error. -/
theorem afterRead_end (s : Scanner) (hd : s.r.data = []) :
    s.afterRead.err = some (s.r.fail.getD GoError.EOF) ∧ s.afterRead.held = s.held ∧
      s.afterRead.tok = s.tok := by
  unfold Scanner.afterRead File.Read
  rw [hd]
  simp

/-- The read of an iteration before the end of the input: some `k` bytes, at
least one and at most the room in the buffer, and no error. -/
theorem afterRead_data (s : Scanner) (hd : s.r.data ≠ []) (hroom : s.held.length < s.newSize) :
    ∃ k, 1 ≤ k ∧ k ≤ s.newSize - s.held.length ∧
      s.afterRead.err = none ∧ s.afterRead.tok = s.tok ∧
      s.afterRead.held = s.held ++ s.r.data.take k ∧
      s.afterRead.r.data = s.r.data.drop k ∧
      s.afterRead.r.fail = s.r.fail ∧
      s.afterRead.buf = s.newSize ∧
      s.afterRead.maxTokenSize = s.maxTokenSize := by
  refine ⟨min (s.newSize - s.held.length) (max 1 (s.r.short.headD (s.newSize - s.held.length))),
    by omega, Nat.min_le_left _ _, ?_⟩
  unfold Scanner.afterRead File.Read
  cases hdata : s.r.data with
  | nil => exact absurd hdata hd
  | cons b rest => simp

/-- What the first `Scan` returns as text when it reports no error: the first
line of the input, without a terminal carriage return. -/
theorem scanLoop_Text :
    ∀ fuel s s', s.err = none → s.tok = none → scanLoop fuel s = some s' → s'.Err = none →
      s'.Text = dropCR (firstLine (s.held ++ s.r.data)) := by
  intro fuel
  induction fuel with
  | zero =>
    intro s s' _ _ h _
    exact absurd h (by simp [scanLoop])
  | succ n ih =>
    intro s s' he ht h herr
    by_cases hm : 10 ∈ s.held
    · rw [scanLoop_token n s hm] at h
      injection h with h
      subst h
      rw [firstLine_append_of_mem _ _ hm]
      rfl
    · by_cases hf : s.held.length = s.buf ∧ s.maxTokenSize ≤ s.buf
      · rw [scanLoop_full n s he ht hm hf] at h
        injection h with h
        subst h
        exact absurd herr (by simp [Scanner.Err])
      · rw [scanLoop_read n s he ht hm hf] at h
        by_cases hd : s.r.data = []
        · obtain ⟨h1, h2, _⟩ := afterRead_end s hd
          cases n with
          | zero => exact absurd h (by simp [scanLoop])
          | succ m =>
            obtain ⟨s'', hs1, _, hs3⟩ := scanLoop_ended m s.afterRead _ h1
            rw [hs1] at h
            injection h with h
            subst h
            rw [hs3, h2, hd, List.append_nil]
        · by_cases hroom : s.held.length < s.newSize
          · obtain ⟨k, _, _, e1, e2, e3, e4, _, _, _⟩ := afterRead_data s hd hroom
            have := ih s.afterRead s' e1 (by rw [e2]; exact ht) h herr
            rw [this, e3, e4, List.append_assoc, List.take_append_drop]
          · have hz : s.newSize - s.held.length = 0 := by omega
            have hr : s.afterRead.r.data = s.r.data ∧ s.afterRead.held = s.held ∧
                s.afterRead.err = none ∧ s.afterRead.tok = s.tok := by
              unfold Scanner.afterRead File.Read
              rw [hz]
              cases hdata : s.r.data with
              | nil => exact absurd hdata hd
              | cons b rest => simp
            have := ih s.afterRead s' hr.2.2.1 (by rw [hr.2.2.2]; exact ht) h herr
            rw [this, hr.1, hr.2.1]

/-- The first `Scan` returns: every iteration that does not return consumes at
least one byte of the input or meets its end, after which the next one returns. -/
theorem scanLoop_terminates :
    ∀ fuel s, s.held.length ≤ s.buf → s.tok = none → s.err = none →
      s.r.data.length + 2 ≤ fuel → ∃ s', scanLoop fuel s = some s' := by
  intro fuel
  induction fuel with
  | zero =>
    intro s _ _ _ h
    omega
  | succ n ih =>
    intro s hb ht he hfuel
    by_cases hm : 10 ∈ s.held
    · exact ⟨_, scanLoop_token n s hm⟩
    · by_cases hf : s.held.length = s.buf ∧ s.maxTokenSize ≤ s.buf
      · exact ⟨_, scanLoop_full n s he ht hm hf⟩
      · rw [scanLoop_read n s he ht hm hf]
        by_cases hd : s.r.data = []
        · obtain ⟨h1, _, _⟩ := afterRead_end s hd
          cases n with
          | zero => omega
          | succ m =>
            obtain ⟨s'', hs1, _, _⟩ := scanLoop_ended m s.afterRead _ h1
            exact ⟨s'', hs1⟩
        · have hroom := newSize_room s hb hf
          obtain ⟨k, k1, k2, e1, e2, e3, e4, _, e6, _⟩ := afterRead_data s hd hroom
          have hlen : 0 < s.r.data.length := List.length_pos.mpr hd
          apply ih s.afterRead
          · rw [e3, e6, List.length_append, List.length_take]
            omega
          · rw [e2]; exact ht
          · exact e1
          · rw [e4, List.length_drop]
            omega

/-- The first `Scan` of a fresh scanner is the result of its loop. -/
theorem Scan_eq (f : File) :
    ∃ s', scanLoop (f.data.length + 2) (NewScanner f) = some s' ∧ (NewScanner f).Scan = s' := by
  obtain ⟨s', hs⟩ := scanLoop_terminates (f.data.length + 2) (NewScanner f) (le_refl _) rfl rfl
    (le_refl _)
  refine ⟨s', hs, ?_⟩
  unfold Scanner.Scan
  have : (NewScanner f).r.data.length = f.data.length := rfl
  rw [this, hs]
  rfl

/-- The text of the first `Scan` when the scanner reports no error. -/
theorem Scan_Text (f : File) (h : (NewScanner f).Scan.Err = none) :
    (NewScanner f).Scan.Text = dropCR (firstLine f.data) := by
  obtain ⟨s', hs, he⟩ := Scan_eq f
  rw [he] at h ⊢
  exact scanLoop_Text _ _ _ rfl rfl hs h

/-- A scan meets no error when no read fails before the first line is
complete (no read fails at all, or the input holds a newline) and the first
line is shorter than the largest token. -/
theorem scanLoop_clean :
    ∀ fuel s s', s.err = none → s.tok = none →
      (s.r.fail = none ∨ 10 ∈ s.held ++ s.r.data) →
      (firstLine (s.held ++ s.r.data)).length < s.maxTokenSize →
      scanLoop fuel s = some s' → s'.Err = none := by
  intro fuel
  induction fuel with
  | zero =>
    intro s s' _ _ _ _ h
    exact absurd h (by simp [scanLoop])
  | succ n ih =>
    intro s s' he ht hfail hlen h
    by_cases hm : 10 ∈ s.held
    · rw [scanLoop_token n s hm] at h
      injection h with h
      subst h
      simp [Scanner.Err, he]
    · have hfl : firstLine (s.held ++ s.r.data) = s.held ++ firstLine s.r.data := by
        unfold firstLine
        rw [List.takeWhile_append_of_pos]
        intro x hx
        simp only [bne_iff_ne, ne_eq]
        rintro rfl
        exact hm hx
      by_cases hf : s.held.length = s.buf ∧ s.maxTokenSize ≤ s.buf
      · rw [hfl, List.length_append] at hlen
        omega
      · rw [scanLoop_read n s he ht hm hf] at h
        by_cases hd : s.r.data = []
        · obtain ⟨h1, _, _⟩ := afterRead_end s hd
          have hnone : s.r.fail = none := by
            rcases hfail with hfail | hfail
            · exact hfail
            · rw [hd, List.append_nil] at hfail
              exact absurd hfail hm
          rw [hnone] at h1
          cases n with
          | zero => exact absurd h (by simp [scanLoop])
          | succ m =>
            obtain ⟨s'', hs1, hs2, _⟩ := scanLoop_ended m s.afterRead _ h1
            rw [hs1] at h
            injection h with h
            subst h
            simp [Scanner.Err, hs2]
        · by_cases hroom : s.held.length < s.newSize
          · obtain ⟨k, _, _, e1, e2, e3, e4, e5, _, e7⟩ := afterRead_data s hd hroom
            have hsame : s.afterRead.held ++ s.afterRead.r.data = s.held ++ s.r.data := by
              rw [e3, e4, List.append_assoc, List.take_append_drop]
            apply ih s.afterRead s' e1 (by rw [e2]; exact ht) _ _ h
            · rw [e5, hsame]
              exact hfail
            · rw [hsame, e7]
              exact hlen
          · have hz : s.newSize - s.held.length = 0 := by omega
            have hr : s.afterRead.r.data = s.r.data ∧ s.afterRead.held = s.held ∧
                s.afterRead.err = none ∧ s.afterRead.tok = s.tok ∧
                s.afterRead.r.fail = s.r.fail ∧ s.afterRead.maxTokenSize = s.maxTokenSize := by
              unfold Scanner.afterRead File.Read
              rw [hz]
              cases hdata : s.r.data with
              | nil => exact absurd hdata hd
              | cons b rest => simp
            apply ih s.afterRead s' hr.2.2.1 (by rw [hr.2.2.2.1]; exact ht) _ _ h
            · rw [hr.2.2.2.2.1, hr.1, hr.2.1]
              exact hfail
            · rw [hr.1, hr.2.1, hr.2.2.2.2.2]
              exact hlen

/-- A file in which no read fails before the first line is complete, and whose
first line is shorter than `MaxScanTokenSize`, is scanned without error. -/
theorem Scan_clean (f : File) (hread : f.fail = none ∨ 10 ∈ f.data)
    (hlen : (firstLine f.data).length < MaxScanTokenSize) : (NewScanner f).Scan.Err = none := by
  obtain ⟨s', hs, he⟩ := Scan_eq f
  rw [he]
  exact scanLoop_clean _ (NewScanner f) _ rfl rfl hread hlen hs

/-- A read error met before any newline, in an input shorter than the largest
token, is the error of the scanner. -/
theorem scanLoop_read_error (e : GoError) :
    ∀ fuel s s', s.err = none → s.tok = none → s.r.fail = some e →
      10 ∉ s.held ++ s.r.data → (s.held ++ s.r.data).length < s.maxTokenSize →
      scanLoop fuel s = some s' → s'.err = some e := by
  intro fuel
  induction fuel with
  | zero =>
    intro s s' _ _ _ _ _ h
    exact absurd h (by simp [scanLoop])
  | succ n ih =>
    intro s s' he ht hfail hno hlen h
    have hm : 10 ∉ s.held := fun hx => hno (List.mem_append_left _ hx)
    by_cases hf : s.held.length = s.buf ∧ s.maxTokenSize ≤ s.buf
    · rw [List.length_append] at hlen
      omega
    · rw [scanLoop_read n s he ht hm hf] at h
      by_cases hd : s.r.data = []
      · obtain ⟨h1, _, _⟩ := afterRead_end s hd
        rw [hfail] at h1
        cases n with
        | zero => exact absurd h (by simp [scanLoop])
        | succ m =>
          obtain ⟨s'', hs1, hs2, _⟩ := scanLoop_ended m s.afterRead _ h1
          rw [hs1] at h
          injection h with h
          subst h
          simpa using hs2
      · by_cases hroom : s.held.length < s.newSize
        · obtain ⟨k, _, _, e1, e2, e3, e4, e5, _, e7⟩ := afterRead_data s hd hroom
          apply ih s.afterRead s' e1 (by rw [e2]; exact ht) (by rw [e5]; exact hfail) _ _ h
          · rw [e3, e4, List.append_assoc, List.take_append_drop]
            exact hno
          · rw [e3, e4, e7, List.append_assoc, List.take_append_drop]
            exact hlen
        · have hz : s.newSize - s.held.length = 0 := by omega
          have hr : s.afterRead.r.data = s.r.data ∧ s.afterRead.held = s.held ∧
              s.afterRead.err = none ∧ s.afterRead.tok = s.tok ∧
              s.afterRead.r.fail = s.r.fail ∧ s.afterRead.maxTokenSize = s.maxTokenSize := by
            unfold Scanner.afterRead File.Read
            rw [hz]
            cases hdata : s.r.data with
            | nil => exact absurd hdata hd
            | cons b rest => simp
          apply ih s.afterRead s' hr.2.2.1 (by rw [hr.2.2.2.1]; exact ht)
            (by rw [hr.2.2.2.2.1]; exact hfail) _ _ h
          · rw [hr.1, hr.2.1]
            exact hno
          · rw [hr.1, hr.2.1, hr.2.2.2.2.2]
            exact hlen

/-- A file whose reading fails with `e` before any newline, after fewer than
`MaxScanTokenSize` bytes, makes the scanner report `e`. -/
theorem Scan_read_error (f : File) (e : GoError) (hfail : f.fail = some e)
    (hne : e ≠ GoError.EOF) (hno : 10 ∉ f.data) (hlen : f.data.length < MaxScanTokenSize) :
    (NewScanner f).Scan.Err = some e := by
  obtain ⟨s', hs, he⟩ := Scan_eq f
  rw [he]
  have := scanLoop_read_error e _ (NewScanner f) _ rfl rfl hfail hno hlen hs
  unfold Scanner.Err
  rw [this, if_neg]
  intro h
  injection h with h
  exact hne h

theorem newSize_le (s : Scanner) (hb : s.buf ≤ s.maxTokenSize) : s.newSize ≤ s.maxTokenSize := by
  unfold Scanner.newSize
  split_ifs
  · exact Nat.min_le_right _ _
  · exact Nat.min_le_right _ _
  · exact hb

/-- A first line that does not end within the largest token makes the scanner
fail with `ErrTooLong`. -/
theorem scanLoop_too_long :
    ∀ fuel s s', s.err = none → s.tok = none → s.held.length ≤ s.buf →
      s.buf ≤ s.maxTokenSize → 10 ∉ (s.held ++ s.r.data).take s.maxTokenSize →
      s.maxTokenSize ≤ (s.held ++ s.r.data).length →
      scanLoop fuel s = some s' → s'.err = some GoError.ErrTooLong := by
  intro fuel
  induction fuel with
  | zero =>
    intro s s' _ _ _ _ _ _ h
    exact absurd h (by simp [scanLoop])
  | succ n ih =>
    intro s s' he ht hb hbM hno hlen h
    have hm : 10 ∉ s.held := by
      intro hx
      apply hno
      rw [List.take_append_eq_append_take, List.take_of_length_le (le_trans hb hbM)]
      exact List.mem_append_left _ hx
    by_cases hf : s.held.length = s.buf ∧ s.maxTokenSize ≤ s.buf
    · rw [scanLoop_full n s he ht hm hf] at h
      injection h with h
      subst h
      rfl
    · rw [scanLoop_read n s he ht hm hf] at h
      by_cases hd : s.r.data = []
      · rw [hd, List.append_nil] at hlen
        exact absurd ⟨by omega, by omega⟩ hf
      · have hroom := newSize_room s hb hf
        obtain ⟨k, _, k2, e1, e2, e3, e4, _, e6, e7⟩ := afterRead_data s hd hroom
        have hsame : s.afterRead.held ++ s.afterRead.r.data = s.held ++ s.r.data := by
          rw [e3, e4, List.append_assoc, List.take_append_drop]
        apply ih s.afterRead s' e1 (by rw [e2]; exact ht) _ _ _ _ h
        · rw [e3, e6, List.length_append, List.length_take]
          omega
        · rw [e6, e7]
          exact newSize_le s hbM
        · rw [hsame, e7]
          exact hno
        · rw [hsame, e7]
          exact hlen

/-- A file with no newline among its first `MaxScanTokenSize` bytes makes the
scanner report `ErrTooLong`. -/
theorem Scan_too_long (f : File) (hno : 10 ∉ f.data.take MaxScanTokenSize)
    (hlen : MaxScanTokenSize ≤ f.data.length) :
    (NewScanner f).Scan.Err = some GoError.ErrTooLong := by
  obtain ⟨s', hs, he⟩ := Scan_eq f
  rw [he]
  have := scanLoop_too_long _ (NewScanner f) _ rfl rfl (le_refl _) (Nat.zero_le _) hno hlen hs
  unfold Scanner.Err
  rw [this, if_neg (by decide)]

/-! ## Lines that cannot be confused -/

theorem cons_ne_of_head_ne {a b : Nat} (h : a ≠ b) (x y : List Nat) : a :: x ≠ b :: y := by
  intro hxy
  exact h (List.cons.inj hxy).1

theorem setting_head : str "setting " = 115 :: str "etting " := by decide

theorem error_head : str "Error: " = 69 :: str "rror: " := by decide

theorem waiting_head :
    str "waiting changes to propagate: " = 119 :: str "aiting changes to propagate: " := by
  decide

theorem applied_head : str "change applied" = 99 :: str "hange applied" := by decide

theorem sent_head : str "change sent to route53" = 99 :: str "hange sent to route53" := by decide

theorem applied_ne_sent : str "change applied" ≠ str "change sent to route53" := by decide

/-- A line that starts with another letter than `c` is neither of the two
closing reports. -/
theorem not_a_report {a : Nat} (h : a ≠ 99) (x : List Nat) :
    Event.Log (a :: x) ≠ Event.Log (str "change applied") ∧
      Event.Log (a :: x) ≠ Event.Log (str "change sent to route53") := by
  constructor
  · intro hl
    injection hl with hl
    rw [applied_head] at hl
    exact cons_ne_of_head_ne h _ _ hl
  · intro hl
    injection hl with hl
    rw [sent_head] at hl
    exact cons_ne_of_head_ne h _ _ hl

/-! ## The events of each part of `main` -/

theorem findTargetByFile_events (w : World) (ipFile : GoString) :
    (findTargetByFile w ipFile).2 = [.Open ipFile] := by
  unfold findTargetByFile
  cases w.Open ipFile with
  | error err => rfl
  | ok file =>
    simp only []
    cases (NewScanner file).Scan.Err <;> rfl

theorem findTargetByMetadata_events (w : World) (sess : Session) :
    (findTargetByMetadata w sess).2 =
      if w.Available sess then [.Available, .GetMetadata (str "public-ipv4")]
      else [.Available] := by
  unfold findTargetByMetadata
  cases w.Available sess with
  | false => rfl
  | true =>
    simp only [Bool.not_true, Bool.false_eq_true, if_false, if_true]
    cases w.GetMetadata sess (str "public-ipv4") <;> rfl

/-- The resolution step makes calls only: it prints nothing, submits nothing
and waits for nothing. -/
theorem resolveTarget_events (fl : Flags) (w : World) (sess : Session) :
    ∀ ev ∈ (resolveTarget fl w sess).2,
      (∃ n, ev = .Open n) ∨ ev = .Available ∨ (∃ p, ev = .GetMetadata p) := by
  intro ev hev
  unfold resolveTarget at hev
  split_ifs at hev
  · simp at hev
  · rw [findTargetByFile_events] at hev
    simp at hev
    exact Or.inl ⟨_, hev⟩
  · rw [findTargetByMetadata_events] at hev
    split_ifs at hev
    · simp at hev
      rcases hev with h | h
      · exact Or.inr (Or.inl h)
      · exact Or.inr (Or.inr ⟨_, h⟩)
    · simp at hev
      exact Or.inr (Or.inl hev)
  · simp at hev

theorem resolveTarget_quiet (fl : Flags) (w : World) (sess : Session) :
    ∀ ev ∈ (resolveTarget fl w sess).2, Quiet ev := by
  intro ev hev
  rcases resolveTarget_events fl w sess ev hev with ⟨n, rfl⟩ | rfl | ⟨p, rfl⟩ <;>
    exact ⟨fun i h => (nomatch h), fun h => (nomatch h), fun h => (nomatch h)⟩

theorem printError_quiet (err : GoError) : ∀ ev ∈ printError err, Quiet ev := by
  intro ev hev
  have hp : ∀ l, Quiet (.Println l) := fun l =>
    ⟨fun i h => (nomatch h), fun h => (nomatch h), fun h => (nomatch h)⟩
  have hl : ∀ x, Quiet (.Log (str "Error: " ++ x)) := fun x => by
    rw [error_head]
    exact ⟨fun i h => (nomatch h), (not_a_report (by decide) _).1, (not_a_report (by decide) _).2⟩
  cases err with
  | awsError code message text orig =>
    cases orig with
    | none =>
      simp only [printError, List.append_nil, List.mem_cons, List.mem_singleton,
        List.not_mem_nil, or_false] at hev
      rcases hev with rfl | rfl
      · simpa [List.append_assoc] using hl (code ++ str " " ++ message)
      · exact hl _
    | some o =>
      simp only [printError, List.cons_append, List.nil_append, List.mem_cons,
        List.mem_singleton, List.not_mem_nil, or_false] at hev
      rcases hev with rfl | rfl | rfl
      · simpa [List.append_assoc] using hl (code ++ str " " ++ message)
      · exact hl _
      · exact hp _
  | EOF => simp only [printError, List.mem_singleton] at hev; subst hev; exact hp _
  | ErrTooLong => simp only [printError, List.mem_singleton] at hev; subst hev; exact hp _
  | errorString t => simp only [printError, List.mem_singleton] at hev; subst hev; exact hp _

/-- The run up to and including the submit, when the session is created. -/
theorem main_eq (fl : Flags) (w : World) (sess : Session) (hs : w.NewSession = .ok sess) :
    main fl w =
      [.NewSession] ++ (resolveTarget fl w sess).2 ++
        [.Log (str "setting " ++ fl.domain ++ str " to IP " ++ (resolveTarget fl w sess).1.1 ++
            str " in zone " ++ fl.zoneID),
          .ChangeResourceRecordSets (buildParams fl (resolveTarget fl w sess).1.1)] ++
        (match w.ChangeResourceRecordSets sess (buildParams fl (resolveTarget fl w sess).1.1) with
         | .error err => printError err
         | .ok resp => afterSubmit fl w sess resp) := by
  unfold main
  rw [hs]

/-- The run whose submit fails: it ends with the printing of the error. -/
theorem main_submit_error (fl : Flags) (w : World) (sess : Session) (err : GoError)
    (hs : w.NewSession = .ok sess)
    (hsub : w.ChangeResourceRecordSets sess (buildParams fl (resolveTarget fl w sess).1.1) =
      .error err) :
    main fl w =
      [.NewSession] ++ (resolveTarget fl w sess).2 ++
        [.Log (str "setting " ++ fl.domain ++ str " to IP " ++ (resolveTarget fl w sess).1.1 ++
            str " in zone " ++ fl.zoneID),
          .ChangeResourceRecordSets (buildParams fl (resolveTarget fl w sess).1.1)] ++
        printError err := by
  rw [main_eq fl w sess hs, hsub]

/-- The run whose submit succeeds: it goes on with lines 138-166. -/
theorem main_submit_ok (fl : Flags) (w : World) (sess : Session)
    (resp : ChangeResourceRecordSetsOutput) (hs : w.NewSession = .ok sess)
    (hsub : w.ChangeResourceRecordSets sess (buildParams fl (resolveTarget fl w sess).1.1) =
      .ok resp) :
    main fl w =
      [.NewSession] ++ (resolveTarget fl w sess).2 ++
        [.Log (str "setting " ++ fl.domain ++ str " to IP " ++ (resolveTarget fl w sess).1.1 ++
            str " in zone " ++ fl.zoneID),
          .ChangeResourceRecordSets (buildParams fl (resolveTarget fl w sess).1.1)] ++
        afterSubmit fl w sess resp := by
  rw [main_eq fl w sess hs, hsub]

/-- The events before the outcome of the submit is known are quiet. -/
theorem main_head_quiet (fl : Flags) (w : World) (sess : Session) :
    ∀ ev ∈ [Event.NewSession] ++ (resolveTarget fl w sess).2 ++
        [.Log (str "setting " ++ fl.domain ++ str " to IP " ++ (resolveTarget fl w sess).1.1 ++
            str " in zone " ++ fl.zoneID),
          .ChangeResourceRecordSets (buildParams fl (resolveTarget fl w sess).1.1)], Quiet ev := by
  intro ev hev
  simp only [List.mem_append, List.mem_singleton, List.mem_cons, List.not_mem_nil,
    or_false] at hev
  rcases hev with (rfl | hev) | rfl | rfl
  · exact ⟨fun i h => (nomatch h), fun h => (nomatch h), fun h => (nomatch h)⟩
  · exact resolveTarget_quiet fl w sess ev hev
  · rw [setting_head]
    simp only [List.cons_append]
    exact ⟨fun i h => (nomatch h), (not_a_report (by decide) _).1, (not_a_report (by decide) _).2⟩
  · exact ⟨fun i h => (nomatch h), fun h => (nomatch h), fun h => (nomatch h)⟩

theorem resolveTarget_no_submit_no_wait (fl : Flags) (w : World) (sess : Session) :
    (resolveTarget fl w sess).2.filter Event.isSubmit = [] ∧
      (resolveTarget fl w sess).2.filter Event.isWait = [] := by
  constructor <;>
  · rw [List.filter_eq_nil_iff]
    intro ev hev
    rcases resolveTarget_events fl w sess ev hev with ⟨n, rfl⟩ | rfl | ⟨p, rfl⟩ <;> simp [Event.isSubmit, Event.isWait]

theorem printError_no_submit_no_wait (err : GoError) :
    (printError err).filter Event.isSubmit = [] ∧ (printError err).filter Event.isWait = [] := by
  cases err with
  | awsError code message text orig => cases orig <;> simp [printError, Event.isSubmit, Event.isWait]
  | EOF => simp [printError, Event.isSubmit, Event.isWait]
  | ErrTooLong => simp [printError, Event.isSubmit, Event.isWait]
  | errorString t => simp [printError, Event.isSubmit, Event.isWait]

theorem afterSubmit_no_submit (fl : Flags) (w : World) (sess : Session)
    (resp : ChangeResourceRecordSetsOutput) :
    (afterSubmit fl w sess resp).filter Event.isSubmit = [] := by
  unfold afterSubmit
  split_ifs
  · cases hi : resp.ChangeInfo with
    | none => simp [Event.isSubmit]
    | some info =>
      cases hc : info.Comment with
      | none => simp [Event.isSubmit, hc]
      | some comment =>
        cases hp : w.WaitUntilResourceRecordSetsChanged sess ⟨info.Id⟩ with
        | none => simp [Event.isSubmit, hc, hp]
        | some err => simp [Event.isSubmit, hc, hp, (printError_no_submit_no_wait err).1]
  · simp [Event.isSubmit]

/-- When the session is created the run calls `ChangeResourceRecordSets` exactly
once, with the request built from the flags and the resolved target. -/
theorem main_submits_once (fl : Flags) (w : World) (sess : Session)
    (hs : w.NewSession = .ok sess) :
    (main fl w).filter Event.isSubmit =
      [.ChangeResourceRecordSets (buildParams fl (resolveTarget fl w sess).1.1)] := by
  rw [main_eq fl w sess hs]
  simp only [List.filter_append, (resolveTarget_no_submit_no_wait fl w sess).1]
  cases w.ChangeResourceRecordSets sess (buildParams fl (resolveTarget fl w sess).1.1) with
  | error err => simp [Event.isSubmit, (printError_no_submit_no_wait err).1]
  | ok resp => simp [Event.isSubmit, afterSubmit_no_submit]

theorem main_no_session (fl : Flags) (w : World) (err : GoError) (hs : w.NewSession = .error err) :
    main fl w = [.NewSession, .Println (str "failed to create session, " ++ err.Error)] := by
  unfold main
  rw [hs]

theorem afterSubmit_wait (fl : Flags) (w : World) (sess : Session)
    (resp : ChangeResourceRecordSetsOutput) (info : ChangeInfo) (comment : GoString)
    (hw : fl.waitForIt = true) (hinfo : resp.ChangeInfo = some info)
    (hcomment : info.Comment = some comment) :
    afterSubmit fl w sess resp =
      [.Log (str "waiting changes to propagate: " ++ comment),
        .WaitUntilResourceRecordSetsChanged ⟨info.Id⟩] ++
        (match w.WaitUntilResourceRecordSetsChanged sess ⟨info.Id⟩ with
         | some err => printError err
         | none => [.Log (str "change applied")]) := by
  unfold afterSubmit
  rw [if_pos hw, hinfo]
  simp only []
  rw [hcomment]

/-- A response without change info, or without a comment in it, ends a run with
`-wait` in a panic, before any wait. -/
theorem afterSubmit_panic (fl : Flags) (w : World) (sess : Session)
    (resp : ChangeResourceRecordSetsOutput) (hw : fl.waitForIt = true)
    (h : resp.ChangeInfo = none ∨ ∃ info, resp.ChangeInfo = some info ∧ info.Comment = none) :
    afterSubmit fl w sess resp = [.Panic] := by
  unfold afterSubmit
  rw [if_pos hw]
  rcases h with h | ⟨info, h1, h2⟩
  · rw [h]
  · rw [h1]
    simp only []
    rw [h2]

theorem afterSubmit_no_wait (fl : Flags) (w : World) (sess : Session)
    (resp : ChangeResourceRecordSetsOutput) (hw : fl.waitForIt = false) :
    afterSubmit fl w sess resp = [.Log (str "change sent to route53")] := by
  unfold afterSubmit
  rw [hw]
  rfl

theorem waiting_quiet_but_wait (x : GoString) :
    Event.Log (str "waiting changes to propagate: " ++ x) ≠ .Log (str "change applied") ∧
      Event.Log (str "waiting changes to propagate: " ++ x) ≠
        .Log (str "change sent to route53") := by
  rw [waiting_head]
  exact not_a_report (by decide) _

/-- A resolver that returns an error returns the empty target with it. -/
theorem resolveTarget_error_empty (fl : Flags) (w : World) (sess : Session)
    (herr : (resolveTarget fl w sess).1.2 ≠ none) : (resolveTarget fl w sess).1.1 = [] := by
  unfold resolveTarget at herr ⊢
  split_ifs at herr ⊢
  · exact absurd rfl herr
  · unfold findTargetByFile at herr ⊢
    cases ho : w.Open fl.ipFile with
    | error err => rfl
    | ok file =>
      rw [ho] at herr
      simp only [] at herr ⊢
      cases hsc : (NewScanner file).Scan.Err with
      | none => rw [hsc] at herr; exact absurd rfl herr
      | some e => rfl
  · unfold findTargetByMetadata at herr ⊢
    cases ha : w.Available sess with
    | false => rfl
    | true =>
      rw [ha] at herr
      simp only [Bool.not_true, Bool.false_eq_true, if_false] at herr ⊢
      cases hg : w.GetMetadata sess (str "public-ipv4") with
      | error err => rfl
      | ok ip => rw [hg] at herr; exact absurd rfl herr
  · rfl

/-! ## The claims on `main` -/

/-- C1: target resolution in `main` follows the chain explicit > file >
metadata.  A non-empty `ip` is the target as it stands and no call is made (no
file opened, no metadata query); otherwise a non-empty `ipFile` makes the target
and error those of `findTargetByFile ipFile`, the only call being the `Open` of
that file; otherwise `ipMetadata` makes them those of `findTargetByMetadata`,
and no file is opened; otherwise the target is the empty string and no call is
made.  The value so resolved is the one `main` logs and puts into the request it
submits. -/
theorem target_resolution_priority (fl : Flags) (w : World) (sess : Session)
    (hs : w.NewSession = .ok sess) :
    (fl.ip ≠ [] → resolveTarget fl w sess = ((fl.ip, none), [])) ∧
    (fl.ip = [] → fl.ipFile ≠ [] →
      resolveTarget fl w sess = findTargetByFile w fl.ipFile ∧
        (resolveTarget fl w sess).2 = [.Open fl.ipFile]) ∧
    (fl.ip = [] → fl.ipFile = [] → fl.ipMetadata = true →
      resolveTarget fl w sess = findTargetByMetadata w sess ∧
        ∀ n, Event.Open n ∉ (resolveTarget fl w sess).2) ∧
    (fl.ip = [] → fl.ipFile = [] → fl.ipMetadata = false →
      resolveTarget fl w sess = (([], none), [])) ∧
    ∃ rest, main fl w =
      [.NewSession] ++ (resolveTarget fl w sess).2 ++
        [.Log (str "setting " ++ fl.domain ++ str " to IP " ++ (resolveTarget fl w sess).1.1 ++
            str " in zone " ++ fl.zoneID),
          .ChangeResourceRecordSets (buildParams fl (resolveTarget fl w sess).1.1)] ++ rest := by
  refine ⟨?_, ?_, ?_, ?_, ?_⟩
  · intro h
    unfold resolveTarget
    rw [if_pos h]
  · intro h1 h2
    have : resolveTarget fl w sess = findTargetByFile w fl.ipFile := by
      unfold resolveTarget
      rw [if_neg (not_not.mpr h1), if_pos h2]
    exact ⟨this, by rw [this, findTargetByFile_events]⟩
  · intro h1 h2 h3
    have : resolveTarget fl w sess = findTargetByMetadata w sess := by
      unfold resolveTarget
      rw [if_neg (not_not.mpr h1), if_neg (not_not.mpr h2), if_pos h3]
    refine ⟨this, ?_⟩
    intro n hn
    rw [this, findTargetByMetadata_events] at hn
    split_ifs at hn <;> simp at hn
  · intro h1 h2 h3
    unfold resolveTarget
    rw [if_neg (not_not.mpr h1), if_neg (not_not.mpr h2), h3]
    rfl
  · exact ⟨_, main_eq fl w sess hs⟩

/-- C1, at `-ip 203.0.113.9`: the target is that string and no call is made. -/
theorem target_resolution_priority_witness :
    resolveTarget sampleFlags sampleWorld ⟨0⟩ = ((str "203.0.113.9", none), []) :=
  (target_resolution_priority sampleFlags sampleWorld ⟨0⟩ rfl).1 (by decide)

/-- The pair `findTargetByFile` returns for a file that opens, by what the
scanner reports. -/
theorem findTargetByFile_opened (w : World) (ipFile : GoString) (f : File)
    (hopen : w.Open ipFile = .ok f) :
    (findTargetByFile w ipFile).1 =
      match (NewScanner f).Scan.Err with
      | some err => ([], some err)
      | none => (TrimSpace (NewScanner f).Scan.Text, none) := by
  unfold findTargetByFile
  rw [hopen]
  simp only []
  cases (NewScanner f).Scan.Err <;> rfl

/-- The value `findTargetByFile` returns for a file that opens and is scanned
without error: its first line, trimmed. -/
theorem findTargetByFile_value (w : World) (ipFile : GoString) (f : File)
    (hopen : w.Open ipFile = .ok f) (hscan : (NewScanner f).Scan.Err = none) :
    (findTargetByFile w ipFile).1 = (TrimSpace (firstLine f.data), none) := by
  rw [findTargetByFile_opened w ipFile f hopen, hscan]
  simp only []
  rw [Scan_Text f hscan, TrimSpace_dropCR]

/-- C3: `findTargetByFile` on a path that cannot be opened returns the empty
target with a non-nil error (the open error behind the text
`can't open ip file: `); when the scanner reports an error it returns the empty
target with that very error, and so it does for a read that fails before the
first line is complete; and it never returns a non-empty target together with
an error. -/
theorem findTargetByFile_failure (w : World) (ipFile : GoString) :
    (∀ e, w.Open ipFile = .error e →
      (findTargetByFile w ipFile).1 =
        ([], some (.errorString (str "can't open ip file: " ++ e.Error)))) ∧
    (∀ f e, w.Open ipFile = .ok f → (NewScanner f).Scan.Err = some e →
      (findTargetByFile w ipFile).1 = ([], some e)) ∧
    (∀ f e, w.Open ipFile = .ok f → f.fail = some e → e ≠ GoError.EOF → 10 ∉ f.data →
      f.data.length < MaxScanTokenSize → (findTargetByFile w ipFile).1 = ([], some e)) ∧
    ((findTargetByFile w ipFile).1.2 ≠ none → (findTargetByFile w ipFile).1.1 = []) := by
  refine ⟨?_, ?_, ?_, ?_⟩
  · intro e he
    unfold findTargetByFile
    rw [he]
  · intro f e hf he
    rw [findTargetByFile_opened w ipFile f hf, he]
  · intro f e hf hfail hne hno hlen
    rw [findTargetByFile_opened w ipFile f hf, Scan_read_error f e hfail hne hno hlen]
  · intro herr
    unfold findTargetByFile at herr ⊢
    cases ho : w.Open ipFile with
    | error err => rfl
    | ok file =>
      rw [ho] at herr
      simp only [] at herr ⊢
      cases hsc : (NewScanner file).Scan.Err with
      | none => rw [hsc] at herr; exact absurd rfl herr
      | some e => rfl

/-- C3, at the path `/nonexistent` of a world where no file can be opened. -/
theorem findTargetByFile_failure_witness :
    (findTargetByFile sampleWorld (str "/nonexistent")).1 =
      ([], some (.errorString
        (str "can't open ip file: " ++ str "open: no such file or directory"))) :=
  (findTargetByFile_failure sampleWorld (str "/nonexistent")).1 _ rfl

/-- C4: when the metadata service reports itself unavailable,
`findTargetByMetadata` returns the empty target with the error
`Metadata service unavailable` and its only call is `Available` (the
`public-ipv4` query is not issued); when the service is available it returns the
value of `public-ipv4` with a nil error if the query succeeds, and the empty
target with the very error of the query if it fails. -/
theorem findTargetByMetadata_contract (w : World) (sess : Session) :
    (w.Available sess = false →
      findTargetByMetadata w sess =
        (([], some (.errorString (str "Metadata service unavailable"))), [.Available])) ∧
    (∀ ip, w.Available sess = true → w.GetMetadata sess (str "public-ipv4") = .ok ip →
      (findTargetByMetadata w sess).1 = (ip, none)) ∧
    (∀ e, w.Available sess = true → w.GetMetadata sess (str "public-ipv4") = .error e →
      (findTargetByMetadata w sess).1 = ([], some e)) := by
  refine ⟨?_, ?_, ?_⟩
  · intro ha
    unfold findTargetByMetadata
    rw [ha]
    rfl
  · intro ip ha hg
    unfold findTargetByMetadata
    rw [ha, hg]
    rfl
  · intro e ha hg
    unfold findTargetByMetadata
    rw [ha, hg]
    rfl

/-- C4, at a world whose metadata service is unavailable. -/
theorem findTargetByMetadata_contract_witness :
    findTargetByMetadata noMetadataWorld ⟨0⟩ =
      (([], some (.errorString (str "Metadata service unavailable"))), [.Available]) :=
  (findTargetByMetadata_contract noMetadataWorld ⟨0⟩).1 rfl

/-- C5: every update request `main` submits has the zone flag as hosted zone id
and a change batch of exactly one change: action `UPSERT`, record name the
domain flag, record type `A`, the TTL flag as TTL, exactly one resource record,
whose value is the resolved target, weight 1, and the fixed set identifier and
batch comment. -/
theorem update_request_shape (fl : Flags) (w : World) (params : ChangeResourceRecordSetsInput)
    (h : Event.ChangeResourceRecordSets params ∈ main fl w) :
    ∃ sess c rr, w.NewSession = .ok sess ∧
      params.HostedZoneId = fl.zoneID ∧
      params.ChangeBatch.Changes = [c] ∧
      c.Action = str "UPSERT" ∧
      c.ResourceRecordSet.Name = fl.domain ∧
      c.ResourceRecordSet.Type_ = str "A" ∧
      c.ResourceRecordSet.TTL = fl.ttl ∧
      c.ResourceRecordSet.ResourceRecords = [rr] ∧
      rr.Value = (resolveTarget fl w sess).1.1 ∧
      c.ResourceRecordSet.Weight = 1 ∧
      c.ResourceRecordSet.SetIdentifier = str "Arbitrary Id describing this change set" ∧
      params.ChangeBatch.Comment = str "Sample update." := by
  cases hs : w.NewSession with
  | error err =>
    rw [main_no_session fl w err hs] at h
    simp at h
  | ok sess =>
    have hmem : Event.ChangeResourceRecordSets params ∈ (main fl w).filter Event.isSubmit :=
      List.mem_filter.mpr ⟨h, rfl⟩
    rw [main_submits_once fl w sess hs, List.mem_singleton] at hmem
    injection hmem with hp
    subst hp
    exact ⟨sess, _, _, rfl, rfl, rfl, rfl, rfl, rfl, rfl, rfl, rfl, rfl, rfl, rfl⟩

/-- C5, at domain `example.com`, zone `Z123`, ttl 120 and target `203.0.113.9`:
the run submits a request, and it is an UPSERT of one A record with that value
and TTL. -/
theorem update_request_shape_witness :
    Event.ChangeResourceRecordSets (buildParams sampleFlags (str "203.0.113.9")) ∈
        main sampleFlags sampleWorld ∧
      ∃ sess c rr, sampleWorld.NewSession = .ok sess ∧
        (buildParams sampleFlags (str "203.0.113.9")).HostedZoneId = str "Z123" ∧
        (buildParams sampleFlags (str "203.0.113.9")).ChangeBatch.Changes = [c] ∧
        c.Action = str "UPSERT" ∧
        c.ResourceRecordSet.Name = str "example.com" ∧
        c.ResourceRecordSet.Type_ = str "A" ∧
        c.ResourceRecordSet.TTL = 120 ∧
        c.ResourceRecordSet.ResourceRecords = [rr] ∧
        rr.Value = str "203.0.113.9" ∧
        c.ResourceRecordSet.Weight = 1 ∧
        c.ResourceRecordSet.SetIdentifier = str "Arbitrary Id describing this change set" ∧
        (buildParams sampleFlags (str "203.0.113.9")).ChangeBatch.Comment =
          str "Sample update." :=
  ⟨by decide,
    update_request_shape sampleFlags sampleWorld (buildParams sampleFlags (str "203.0.113.9"))
      (by decide)⟩

/-- C6: in every run whose submit call returns an error, of either kind, no
event is a call of the wait step and no line is `change applied` or
`change sent to route53`, whatever the `-wait` flag. -/
theorem submit_error_stops (fl : Flags) (w : World) (sess : Session) (err : GoError)
    (hs : w.NewSession = .ok sess)
    (hsub : w.ChangeResourceRecordSets sess (buildParams fl (resolveTarget fl w sess).1.1) =
      .error err) :
    ∀ ev ∈ main fl w,
      (∀ i, ev ≠ .WaitUntilResourceRecordSetsChanged i) ∧
        ev ≠ .Log (str "change applied") ∧ ev ≠ .Log (str "change sent to route53") := by
  intro ev hev
  rw [main_submit_error fl w sess err hs hsub, List.mem_append] at hev
  rcases hev with hev | hev
  · exact main_head_quiet fl w sess ev hev
  · exact printError_quiet err ev hev

/-- C6, at `-wait` with a provider that refuses the submit: the session is
created, the submit fails, and the wait step is not among the events of the run. -/
theorem submit_error_stops_witness :
    refusingWorld.NewSession = .ok ⟨0⟩ ∧
      (∃ err, refusingWorld.ChangeResourceRecordSets ⟨0⟩
        (buildParams waitFlags (resolveTarget waitFlags refusingWorld ⟨0⟩).1.1) = .error err) ∧
      ∀ ev ∈ main waitFlags refusingWorld,
        (∀ i, ev ≠ .WaitUntilResourceRecordSetsChanged i) ∧
          ev ≠ .Log (str "change applied") ∧ ev ≠ .Log (str "change sent to route53") :=
  ⟨rfl, ⟨_, rfl⟩, submit_error_stops waitFlags refusingWorld ⟨0⟩ _ rfl rfl⟩

/-- C7: a run with `-wait` false whose submit succeeds logs
`change sent to route53` and never calls the wait step; and in any run at all,
a call of the wait step means that `-wait` is true and the submit succeeded. -/
theorem wait_only_when_requested (fl : Flags) (w : World) :
    (∀ sess resp, w.NewSession = .ok sess →
      w.ChangeResourceRecordSets sess (buildParams fl (resolveTarget fl w sess).1.1) = .ok resp →
      fl.waitForIt = false →
        Event.Log (str "change sent to route53") ∈ main fl w ∧
          (main fl w).filter Event.isWait = []) ∧
    (∀ i, Event.WaitUntilResourceRecordSetsChanged i ∈ main fl w →
      fl.waitForIt = true ∧ ∃ sess resp, w.NewSession = .ok sess ∧
        w.ChangeResourceRecordSets sess (buildParams fl (resolveTarget fl w sess).1.1) =
          .ok resp) := by
  constructor
  · intro sess resp hs hsub hw
    rw [main_submit_ok fl w sess resp hs hsub, afterSubmit_no_wait fl w sess resp hw]
    refine ⟨by simp, ?_⟩
    simp only [List.filter_append, (resolveTarget_no_submit_no_wait fl w sess).2]
    simp [Event.isWait]
  · intro i hi
    cases hs : w.NewSession with
    | error err =>
      rw [main_no_session fl w err hs] at hi
      simp at hi
    | ok sess =>
      cases hsub : w.ChangeResourceRecordSets sess
          (buildParams fl (resolveTarget fl w sess).1.1) with
      | error err =>
        rw [main_submit_error fl w sess err hs hsub, List.mem_append] at hi
        rcases hi with hi | hi
        · exact absurd rfl ((main_head_quiet fl w sess _ hi).1 i)
        · exact absurd rfl ((printError_quiet err _ hi).1 i)
      | ok resp =>
        rw [main_submit_ok fl w sess resp hs hsub, List.mem_append] at hi
        rcases hi with hi | hi
        · exact absurd rfl ((main_head_quiet fl w sess _ hi).1 i)
        · cases hw : fl.waitForIt with
          | false =>
            rw [afterSubmit_no_wait fl w sess resp hw] at hi
            simp at hi
          | true => exact ⟨rfl, sess, resp, rfl, hsub⟩

/-- C7, at the sample flags (no `-wait`) and a working provider. -/
theorem wait_only_when_requested_witness :
    Event.Log (str "change sent to route53") ∈ main sampleFlags sampleWorld ∧
      (main sampleFlags sampleWorld).filter Event.isWait = [] :=
  (wait_only_when_requested sampleFlags sampleWorld).1 ⟨0⟩ _ rfl rfl rfl

/-- C8, amended: in a run with `-wait` true whose submit succeeds with a
response that carries a change info with a comment, the wait step is
called exactly once, with the change identifier of the submit response;
`change applied` is logged exactly when that call returns no error;
`change sent to route53` is not logged; and when the call returns an error the
run ends with the printing of that error, with neither report. -/
theorem wait_then_applied (fl : Flags) (w : World) (sess : Session)
    (resp : ChangeResourceRecordSetsOutput) (hs : w.NewSession = .ok sess)
    (hsub : w.ChangeResourceRecordSets sess (buildParams fl (resolveTarget fl w sess).1.1) =
      .ok resp)
    (hw : fl.waitForIt = true) (info : ChangeInfo) (comment : GoString)
    (hinfo : resp.ChangeInfo = some info) (hcomment : info.Comment = some comment) :
    (main fl w).filter Event.isWait =
        [.WaitUntilResourceRecordSetsChanged ⟨info.Id⟩] ∧
      (Event.Log (str "change applied") ∈ main fl w ↔
        w.WaitUntilResourceRecordSetsChanged sess ⟨info.Id⟩ = none) ∧
      Event.Log (str "change sent to route53") ∉ main fl w ∧
      (∀ err, w.WaitUntilResourceRecordSetsChanged sess ⟨info.Id⟩ = some err →
        Event.Log (str "change applied") ∉ main fl w ∧
          ∃ before, main fl w =
            before ++ [.WaitUntilResourceRecordSetsChanged ⟨info.Id⟩] ++
              printError err) := by
  have hmain := main_submit_ok fl w sess resp hs hsub
  rw [afterSubmit_wait fl w sess resp info comment hw hinfo hcomment] at hmain
  have hwaitq := waiting_quiet_but_wait comment
  cases hp : w.WaitUntilResourceRecordSetsChanged sess ⟨info.Id⟩ with
  | none =>
    rw [hp] at hmain
    refine ⟨?_, ?_, ?_, ?_⟩
    · rw [hmain]
      simp only [List.filter_append, (resolveTarget_no_submit_no_wait fl w sess).2]
      simp [Event.isWait]
    · rw [hmain]
      simp
    · rw [hmain]
      intro hmem
      rcases List.mem_append.mp hmem with hmem | hmem
      · exact (main_head_quiet fl w sess _ hmem).2.2 rfl
      · rcases List.mem_append.mp hmem with hmem | hmem
        · simp only [List.mem_cons, List.mem_singleton, List.not_mem_nil, or_false] at hmem
          rcases hmem with hmem | hmem
          · exact hwaitq.2 hmem.symm
          · cases hmem
        · simp only [List.mem_singleton] at hmem
          injection hmem with hmem
          exact applied_ne_sent hmem.symm
    · intro err herr
      cases herr
  | some perr =>
    rw [hp] at hmain
    have hno : ∀ ev ∈ main fl w, ev ≠ .Log (str "change applied") ∧
        ev ≠ .Log (str "change sent to route53") := by
      intro ev hmem
      rw [hmain] at hmem
      rcases List.mem_append.mp hmem with hmem | hmem
      · exact (main_head_quiet fl w sess _ hmem).2
      · rcases List.mem_append.mp hmem with hmem | hmem
        · simp only [List.mem_cons, List.mem_singleton, List.not_mem_nil, or_false] at hmem
          rcases hmem with rfl | rfl
          · exact hwaitq
          · exact ⟨fun h => (nomatch h), fun h => (nomatch h)⟩
        · exact (printError_quiet perr _ hmem).2
    refine ⟨?_, ?_, ?_, ?_⟩
    · rw [hmain]
      simp only [List.filter_append, (resolveTarget_no_submit_no_wait fl w sess).2,
        (printError_no_submit_no_wait perr).2]
      simp [Event.isWait]
    · constructor
      · intro hmem
        exact absurd rfl (hno _ hmem).1
      · intro h
        cases h
    · intro hmem
      exact absurd rfl (hno _ hmem).2
    · intro err herr
      injection herr with herr
      subst herr
      refine ⟨fun hmem => absurd rfl (hno _ hmem).1, ?_⟩
      refine ⟨[.NewSession] ++ (resolveTarget fl w sess).2 ++
        [.Log (str "setting " ++ fl.domain ++ str " to IP " ++ (resolveTarget fl w sess).1.1 ++
            str " in zone " ++ fl.zoneID),
          .ChangeResourceRecordSets (buildParams fl (resolveTarget fl w sess).1.1)] ++
        [.Log (str "waiting changes to propagate: " ++ comment)], ?_⟩
      rw [hmain]
      simp only [List.append_assoc, List.cons_append, List.nil_append, List.singleton_append]

/-- C8 amended, at `-wait` with a working provider: one wait on change
`/change/C1`, then `change applied`. -/
theorem wait_then_applied_witness :
    (main waitFlags sampleWorld).filter Event.isWait =
        [.WaitUntilResourceRecordSetsChanged ⟨some (str "/change/C1")⟩] ∧
      Event.Log (str "change applied") ∈ main waitFlags sampleWorld :=
  ⟨(wait_then_applied waitFlags sampleWorld ⟨0⟩ _ rfl rfl rfl _ _ rfl rfl).1,
    (wait_then_applied waitFlags sampleWorld ⟨0⟩ _ rfl rfl rfl _ _ rfl rfl).2.1.mpr rfl⟩

/-- C8, as stated, fails: at `-wait` with a provider whose response to the
submit carries no comment, the submit succeeds, the run ends in a panic and the
wait step is never called. -/
theorem wait_skipped_without_comment :
    waitFlags.waitForIt = true ∧
      noCommentWorld.ChangeResourceRecordSets ⟨0⟩
          (buildParams waitFlags (resolveTarget waitFlags noCommentWorld ⟨0⟩).1.1) =
        .ok ⟨some ⟨some (str "/change/C1"), none⟩⟩ ∧
      (main waitFlags noCommentWorld).filter Event.isWait = [] ∧
      Event.Panic ∈ main waitFlags noCommentWorld ∧
      Event.Log (str "change applied") ∉ main waitFlags noCommentWorld :=
  ⟨rfl, rfl, by decide, by decide, by decide⟩

/-- C9 (the code does otherwise): when the selected resolver returns an error
the run does not stop; the target is then the empty string and the request
built from it is submitted all the same. -/
theorem resolver_error_still_submits (fl : Flags) (w : World) (sess : Session)
    (hs : w.NewSession = .ok sess) (herr : (resolveTarget fl w sess).1.2 ≠ none) :
    (resolveTarget fl w sess).1.1 = [] ∧
      (main fl w).filter Event.isSubmit = [.ChangeResourceRecordSets (buildParams fl [])] := by
  have ht := resolveTarget_error_empty fl w sess herr
  refine ⟨ht, ?_⟩
  rw [main_submits_once fl w sess hs, ht]

/-- C9, at `-ip-file /nonexistent`: the open fails, and the run still submits a
request, with the empty string as record value. -/
theorem resolver_error_still_submits_witness :
    (resolveTarget missingFileFlags sampleWorld ⟨0⟩).1.2 ≠ none ∧
      (main missingFileFlags sampleWorld).filter Event.isSubmit =
        [.ChangeResourceRecordSets (buildParams missingFileFlags [])] :=
  ⟨by decide, (resolver_error_still_submits missingFileFlags sampleWorld ⟨0⟩ rfl (by decide)).2⟩

/-- C2, amended: for a file that opens, in which no read fails before the
first line is complete (no read fails at all, or the content holds a newline),
and whose first line (the bytes before the first newline, or all of them) is
shorter than `MaxScanTokenSize` = 65536 bytes, `findTargetByFile` returns a
nil error and that first line with all leading and trailing white space
removed: the line is white space, then the result, then white space, and the
result neither begins nor ends with a white-space character; no other string
stands to the line in that way.  The result is the
empty string when the line is empty or white space only; and two such files
with the same first line give the same result, whatever follows the first
newline. -/
theorem findTargetByFile_first_line (w : World) (ipFile : GoString) (f : File)
    (hopen : w.Open ipFile = .ok f) (hread : f.fail = none ∨ 10 ∈ f.data)
    (hlen : (firstLine f.data).length < MaxScanTokenSize) :
    (findTargetByFile w ipFile).1.2 = none ∧
    Trimmed (firstLine f.data) (findTargetByFile w ipFile).1.1 ∧
    (∀ t, Trimmed (firstLine f.data) t → (findTargetByFile w ipFile).1.1 = t) ∧
    (findTargetByFile w ipFile).1.1 = TrimSpace (firstLine f.data) ∧
    (WhiteSpace (firstLine f.data) → (findTargetByFile w ipFile).1 = ([], none)) ∧
    (∀ (w' : World) (g : File), w'.Open ipFile = .ok g → (g.fail = none ∨ 10 ∈ g.data) →
      firstLine g.data = firstLine f.data →
      (findTargetByFile w' ipFile).1 = (findTargetByFile w ipFile).1) := by
  have hv := findTargetByFile_value w ipFile f hopen (Scan_clean f hread hlen)
  refine ⟨by rw [hv], ?_, ?_, by rw [hv], ?_, ?_⟩
  · rw [hv]
    exact TrimSpace_trimmed _
  · intro t ht
    rw [hv]
    exact TrimSpace_eq_of_trimmed ht
  · intro hsp
    rw [hv, TrimSpace_of_whiteSpace _ hsp]
  · intro w' g hg hgr hsame
    rw [hv, findTargetByFile_value w' ipFile g hg (Scan_clean g hgr (by rw [hsame]; exact hlen)),
      hsame]

/-- C2 amended, at a file that holds `192.0.2.5` and a newline, and at one
whose first line has white space around the address (U+3000 and a carriage
return after it): the result is `192.0.2.5` with a nil error. -/
theorem findTargetByFile_first_line_witness :
    (findTargetByFile fileWorld (str "/etc/ip")).1 = (str "192.0.2.5", none) ∧
      (findTargetByFile paddedFileWorld (str "/etc/ip")).1.2 = none ∧
      (findTargetByFile paddedFileWorld (str "/etc/ip")).1.1 = str "192.0.2.5" ∧
      Trimmed (firstLine paddedContent) (findTargetByFile paddedFileWorld (str "/etc/ip")).1.1 :=
  ⟨Prod.ext
      ((findTargetByFile_first_line fileWorld (str "/etc/ip") ⟨str "192.0.2.5\n", none, []⟩ rfl
        (Or.inl rfl) (by decide)).2.2.2.1.trans (by decide))
      (findTargetByFile_first_line fileWorld (str "/etc/ip") ⟨str "192.0.2.5\n", none, []⟩ rfl
        (Or.inl rfl) (by decide)).1,
    (findTargetByFile_first_line paddedFileWorld (str "/etc/ip") ⟨paddedContent, none, []⟩ rfl
      (Or.inl rfl) (by decide)).1,
    (findTargetByFile_first_line paddedFileWorld (str "/etc/ip") ⟨paddedContent, none, []⟩ rfl
      (Or.inl rfl) (by decide)).2.2.2.1.trans (by decide),
    (findTargetByFile_first_line paddedFileWorld (str "/etc/ip") ⟨paddedContent, none, []⟩ rfl
      (Or.inl rfl) (by decide)).2.1⟩

/-- For a file that opens and has no newline among its first `MaxScanTokenSize`
bytes, `findTargetByFile` returns the empty string with `bufio.ErrTooLong`,
although no read fails. -/
theorem findTargetByFile_line_too_long (w : World) (ipFile : GoString) (f : File)
    (hopen : w.Open ipFile = .ok f) (hno : 10 ∉ f.data.take MaxScanTokenSize)
    (hlen : MaxScanTokenSize ≤ f.data.length) :
    (findTargetByFile w ipFile).1 = ([], some GoError.ErrTooLong) := by
  rw [findTargetByFile_opened w ipFile f hopen, Scan_too_long f hno hlen]

/-- C2, as stated, fails: a regular file of 65536 letters `a` opens and none of
its reads fails, and `findTargetByFile` returns the empty string with
`ErrTooLong`, not the first line with a nil error. -/
theorem long_first_line_rejected :
    longLineWorld.Open (str "/etc/ip") = .ok ⟨List.replicate 65536 97, none, []⟩ ∧
      (findTargetByFile longLineWorld (str "/etc/ip")).1 = ([], some GoError.ErrTooLong) :=
  ⟨rfl,
    findTargetByFile_line_too_long longLineWorld (str "/etc/ip")
      ⟨List.replicate 65536 97, none, []⟩ rfl
      (fun h => by
        have := List.mem_of_mem_take h
        rw [List.mem_replicate] at this
        exact absurd this.2 (by decide))
      (by rw [List.length_replicate]; decide)⟩

/-- C10, as stated, fails: with no mode selected the target is the empty string
and the request built from it is submitted; so it is for a file whose first
line is blank. -/
theorem empty_target_submitted :
    ((resolveTarget defaultFlags sampleWorld ⟨0⟩).1 = ([], none) ∧
      Event.ChangeResourceRecordSets (buildParams defaultFlags []) ∈
        main defaultFlags sampleWorld) ∧
    ((resolveTarget fileFlags blankFileWorld ⟨0⟩).1 = ([], none) ∧
      Event.ChangeResourceRecordSets (buildParams fileFlags []) ∈
        main fileFlags blankFileWorld) := by
  decide

/-- C10, amended: when the session is created and the selected resolver
returns no error, the run builds and submits exactly one update request and its
record value is the resolved target, empty or not: the `-ip` value when there is
one, the empty string when no mode is selected, and the empty string when the
file's first line is empty or holds white space only. -/
theorem target_submitted_unchecked (fl : Flags) (w : World) (sess : Session)
    (hs : w.NewSession = .ok sess) (hok : (resolveTarget fl w sess).1.2 = none) :
    (main fl w).filter Event.isSubmit =
        [.ChangeResourceRecordSets (buildParams fl (resolveTarget fl w sess).1.1)] ∧
    (fl.ip ≠ [] → (resolveTarget fl w sess).1.1 = fl.ip) ∧
    (fl.ip = [] → fl.ipFile = [] → fl.ipMetadata = false →
      (resolveTarget fl w sess).1.1 = []) ∧
    (fl.ip = [] → fl.ipFile ≠ [] → ∀ f, w.Open fl.ipFile = .ok f →
      (runes (firstLine f.data)).all IsSpace = true → (resolveTarget fl w sess).1.1 = []) := by
  refine ⟨main_submits_once fl w sess hs, ?_, ?_, ?_⟩
  · intro h
    unfold resolveTarget
    rw [if_pos h]
  · intro h1 h2 h3
    unfold resolveTarget
    rw [if_neg (not_not.mpr h1), if_neg (not_not.mpr h2), h3]
    rfl
  · intro h1 h2 f hf hsp
    have hr : resolveTarget fl w sess = findTargetByFile w fl.ipFile := by
      unfold resolveTarget
      rw [if_neg (not_not.mpr h1), if_pos h2]
    rw [hr] at hok ⊢
    have hop := findTargetByFile_opened w fl.ipFile f hf
    cases hsc : (NewScanner f).Scan.Err with
    | some e =>
      rw [hsc] at hop
      rw [hop] at hok
      exact absurd hok (Option.some_ne_none e)
    | none =>
      rw [findTargetByFile_value w fl.ipFile f hf hsc, TrimSpace_of_all_space _ hsp]

/-- C10 amended, at the default flags: the session is created, no resolver is
selected, and the one request submitted carries the empty string. -/
theorem target_submitted_unchecked_witness :
    (main defaultFlags sampleWorld).filter Event.isSubmit =
        [.ChangeResourceRecordSets (buildParams defaultFlags [])] :=
  (target_submitted_unchecked defaultFlags sampleWorld ⟨0⟩ rfl rfl).1

end Route53Update
